import Mathlib

/-!
Verification of the Blocky goal-scoring engine and computer-player move
search: a shallow embedding of `src/blocks/settings.py`, `src/blocks/goal.py`
and `src/blocks/player.py`, together with proofs of the specification's
claims about them.

The `Block` (board) data type and the `Action` type are external
collaborators of this code (their modules are not part of the verified
sources); they are modelled from the specification's data-model contract.
All functions of the verified sources themselves are translated directly
from the Python code.
-/

/-- A colour is an RGB triple of machine integers (Python `tuple[int, int, int]`). -/
abbrev Colour := Nat × Nat × Nat

/-- Colour constant from settings.py. -/
def WHITE : Colour := (255, 255, 255)

/-- Colour constant from settings.py. -/
def BLACK : Colour := (0, 0, 0)

/-- Colour constant from settings.py. -/
def PACIFIC_POINT : Colour := (1, 128, 181)

/-- Colour constant from settings.py. -/
def OLD_OLIVE : Colour := (138, 151, 71)

/-- Colour constant from settings.py. -/
def REAL_RED : Colour := (199, 44, 58)

/-- Colour constant from settings.py. -/
def MELON_MAMBO : Colour := (234, 62, 112)

/-- Colour constant from settings.py. -/
def DAFFODIL_DELIGHT : Colour := (255, 211, 92)

/-- Colour constant from settings.py. -/
def TEMPTING_TURQUOISE : Colour := (75, 196, 213)

/-- The palette of colours used in the game (settings.py `COLOUR_LIST`). -/
def COLOUR_LIST : List Colour := [PACIFIC_POINT, REAL_RED, OLD_OLIVE, DAFFODIL_DELIGHT]

/-- The association table inside settings.py `colour_name` mapping each known
colour to its human-readable name (the Python dict `colour_names`). -/
def colour_names : List (Colour × String) :=
  [(PACIFIC_POINT, "Pacific Point"),
   (REAL_RED, "Real Red"),
   (OLD_OLIVE, "Old Olive"),
   (DAFFODIL_DELIGHT, "Daffodil Delight")]

/-- settings.py `colour_name`: return the name associated with `colour`, or
raise `UnknownColourError` (modelled as the `Except.error` case) when the
colour is not a key of the table. -/
def colour_name (colour : Colour) : Except Unit String :=
  match colour_names.lookup colour with
  | some s => Except.ok s
  | none => Except.error ()

/-- goal.py `generate_goals` produces goals of two kinds, each carrying a
target colour: `1 = BlobGoal`, `2 = PerimeterGoal`. -/
inductive Goal where
  | blobGoal (colour : Colour)
  | perimeterGoal (colour : Colour)
deriving DecidableEq, Repr

/-- The target colour carried by a goal. -/
def Goal.colour : Goal → Colour
  | .blobGoal c => c
  | .perimeterGoal c => c

/-- goal.py `generate_goals`, with the random draws made explicit: `picks`
supplies, per loop iteration, the index drawn by `random.choice(colours)`
(any index into the remaining colour list; we reduce it modulo the list
length, faithful because `random.choice` always yields an in-range index)
and the value drawn by `random.randint(1, 2)` for the goal kind.  Each
iteration removes the chosen colour from the remaining list
(`colours.remove(colour)`, first occurrence) and appends a `BlobGoal` when
the kind draw is 1, a `PerimeterGoal` otherwise.  When the remaining colour
list is exhausted (`num_goals` exceeds the palette, violating the stated
precondition) Python's `random.choice` raises; we model that case by
stopping. -/
def generate_goalsAux : Nat → List Colour → List (Nat × Nat) → List Goal
  | 0, _, _ => []
  | n + 1, colours, picks =>
    match colours.get? ((picks.headD (0, 1)).1 % colours.length) with
    | none => []
    | some colour =>
      (if (picks.headD (0, 1)).2 = 1 then Goal.blobGoal colour
       else Goal.perimeterGoal colour)
        :: generate_goalsAux n (colours.erase colour) picks.tail

/-- goal.py `generate_goals`: start from a copy of `COLOUR_LIST` and draw
`num_goals` goals. -/
def generate_goals (numGoals : Nat) (picks : List (Nat × Nat)) : List Goal :=
  generate_goalsAux numGoals COLOUR_LIST picks

/-- Modelled from the spec: the external Board collaborator (module
`blocks.block`, not part of the verified sources).  A Board node carries
`level` (depth from root), `max_depth` (fixed per game), `size` (side
length), `position` (x, y of its top-left corner) and is either a uniform
leaf with a colour or an internal node with exactly four children — exactly
one of the two, never both, never neither. -/
inductive Block where
  | leaf (position : Int × Int) (size : Nat) (level maxDepth : Nat) (colour : Colour)
  | node (position : Int × Int) (size : Nat) (level maxDepth : Nat)
      (c0 c1 c2 c3 : Block)
deriving DecidableEq, Repr

/-- The `position` attribute of a Board node. -/
def Block.position : Block → Int × Int
  | .leaf p _ _ _ _ => p
  | .node p _ _ _ _ _ _ _ => p

/-- The `size` attribute of a Board node. -/
def Block.size : Block → Nat
  | .leaf _ s _ _ _ => s
  | .node _ s _ _ _ _ _ _ => s

/-- The `level` attribute of a Board node. -/
def Block.level : Block → Nat
  | .leaf _ _ lvl _ _ => lvl
  | .node _ _ lvl _ _ _ _ _ => lvl

/-- The `max_depth` attribute of a Board node. -/
def Block.maxDepth : Block → Nat
  | .leaf _ _ _ md _ => md
  | .node _ _ _ md _ _ _ _ => md

/-- The `colour` attribute of a Board node: present exactly on leaves. -/
def Block.colour : Block → Option Colour
  | .leaf _ _ _ _ c => some c
  | .node _ _ _ _ _ _ _ _ => none

/-- The `children` attribute of a Board node: empty on a leaf, the four
sub-regions in their fixed order on an internal node. -/
def Block.children : Block → List Block
  | .leaf _ _ _ _ _ => []
  | .node _ _ _ _ c0 c1 c2 c3 => [c0, c1, c2, c3]

/-- The side length `2 ^ (max_depth - level)` of the grid `flatten` builds
for a node (the `size` local variable of goal.py `flatten`). -/
def Block.gridSide (b : Block) : Nat := 2 ^ (b.maxDepth - b.level)

/-- Modelled from the spec: the Board invariant ("leaf/children
invariant").  A leaf is uniform with `level ≤ max_depth`; an internal node
has exactly four children, each a quadrant of half its side, one level
deeper, sharing `max_depth`, in the fixed order upper-right, upper-left,
lower-left, lower-right.  The node's side length is positive and divisible
by `2 ^ (max_depth - level)` so that every node is a whole number of unit
cells across. -/
def Block.valid : Block → Prop
  | .leaf _ s lvl md _ => lvl ≤ md ∧ 0 < s ∧ 2 ^ (md - lvl) ∣ s
  | .node (px, py) s lvl md c0 c1 c2 c3 =>
      lvl < md ∧ 0 < s ∧ 2 ^ (md - lvl) ∣ s ∧
      c0.position = (px + ((s / 2 : Nat) : Int), py) ∧
      c1.position = (px, py) ∧
      c2.position = (px, py + ((s / 2 : Nat) : Int)) ∧
      c3.position = (px + ((s / 2 : Nat) : Int), py + ((s / 2 : Nat) : Int)) ∧
      c0.size = s / 2 ∧ c1.size = s / 2 ∧ c2.size = s / 2 ∧ c3.size = s / 2 ∧
      c0.level = lvl + 1 ∧ c1.level = lvl + 1 ∧ c2.level = lvl + 1 ∧ c3.level = lvl + 1 ∧
      c0.maxDepth = md ∧ c1.maxDepth = md ∧ c2.maxDepth = md ∧ c3.maxDepth = md ∧
      c0.valid ∧ c1.valid ∧ c2.valid ∧ c3.valid

/-- A grid cell holds a colour once written; `none` is the unfilled state
(the `None` placeholder goal.py `flatten` starts from) and also stands for
the absence of any cell outside the grid's `n × n` extent.  Indexing is
`g x y` for column `x`, row `y`, matching `L[x][y]` in the Python lists. -/
abbrev Grid := Nat → Nat → Option Colour

/-- The all-`None` grid goal.py `flatten` starts from. -/
def emptyGrid : Grid := fun _ _ => none

/-- The integer offset, in parent unit cells, at which a child's sub-grid is
spliced into the parent grid: `(child.position - block.position) //
unit_size` in both axes (Python floor division, hence `Int.fdiv`). -/
def childOffset (parentPos : Int × Int) (unitSize : Nat) (child : Block) : Nat × Nat :=
  (((child.position.1 - parentPos.1).fdiv (unitSize : Int)).toNat,
   ((child.position.2 - parentPos.2).fdiv (unitSize : Int)).toNat)

/-- The splice loop of goal.py `flatten`: `final[ox + j][oy + i] =
temp[j][i]` for all `i, j` below the child grid's side `m`, expressed as a
function grid: inside the `m × m` box at `(ox, oy)` the cell comes from the
child grid, elsewhere the previous grid is unchanged. -/
def spliceAt (ox oy m : Nat) (childGrid g : Grid) : Grid :=
  fun x y =>
    if ox ≤ x ∧ x < ox + m ∧ oy ≤ y ∧ y < oy + m then childGrid (x - ox) (y - oy)
    else g x y

/-- goal.py `flatten`: a leaf yields the `n × n` grid uniformly filled with
its colour (`n = 2 ^ (max_depth - level)`); an internal node splices each
child's flattened grid into an initially unfilled grid at the child's
offset, children processed in list order (a later write would win, though
the quadrants are in fact disjoint). -/
def flatten : Block → Grid
  | .leaf _ _ lvl md colour => fun x y =>
      if x < 2 ^ (md - lvl) ∧ y < 2 ^ (md - lvl) then some colour else none
  | .node (px, py) s lvl md c0 c1 c2 c3 =>
      spliceAt (childOffset (px, py) (s / 2 ^ (md - lvl)) c3).1
        (childOffset (px, py) (s / 2 ^ (md - lvl)) c3).2 c3.gridSide (flatten c3)
        (spliceAt (childOffset (px, py) (s / 2 ^ (md - lvl)) c2).1
          (childOffset (px, py) (s / 2 ^ (md - lvl)) c2).2 c2.gridSide (flatten c2)
          (spliceAt (childOffset (px, py) (s / 2 ^ (md - lvl)) c1).1
            (childOffset (px, py) (s / 2 ^ (md - lvl)) c1).2 c1.gridSide (flatten c1)
            (spliceAt (childOffset (px, py) (s / 2 ^ (md - lvl)) c0).1
              (childOffset (px, py) (s / 2 ^ (md - lvl)) c0).2 c0.gridSide (flatten c0)
              emptyGrid)))

/-- The list of cell coordinates written by one `m × m` splice loop of
goal.py `flatten` (outer loop `i` over rows, inner loop `j` over columns,
writing `final[ox + j][oy + i]`). -/
def quadWrites (ox oy m : Nat) : List (Nat × Nat) :=
  (List.range m).flatMap (fun i => (List.range m).map (fun j => (ox + j, oy + i)))

/-- The list of all cell coordinates written by one invocation of goal.py
`flatten` (not counting recursive invocations): a leaf writes every cell of
its own grid; an internal node runs one splice loop per child. -/
def cellWrites : Block → List (Nat × Nat)
  | .leaf _ _ lvl md _ => quadWrites 0 0 (2 ^ (md - lvl))
  | .node (px, py) s lvl md c0 c1 c2 c3 =>
      [c0, c1, c2, c3].flatMap (fun c =>
        quadWrites (childOffset (px, py) (s / 2 ^ (md - lvl)) c).1
          (childOffset (px, py) (s / 2 ^ (md - lvl)) c).2 c.gridSide)

/-- Invariant-carrying lemma for the `generate_goals` loop: from a
duplicate-free remaining colour list with at least `n` colours, the loop
returns exactly `n` goals, their colours are pairwise distinct and all drawn
from the remaining list, and every goal is a blob or perimeter goal. -/
theorem generate_goalsAux_spec (n : Nat) :
    ∀ (colours : List Colour) (picks : List (Nat × Nat)),
      colours.Nodup → n ≤ colours.length →
      (generate_goalsAux n colours picks).length = n ∧
      ((generate_goalsAux n colours picks).map Goal.colour).Nodup ∧
      (∀ g ∈ generate_goalsAux n colours picks, g.colour ∈ colours) ∧
      (∀ g ∈ generate_goalsAux n colours picks,
        (∃ c, g = Goal.blobGoal c) ∨ (∃ c, g = Goal.perimeterGoal c)) := by
  induction n with
  | zero =>
    intro colours picks _ _
    simp [generate_goalsAux]
  | succ n ih =>
    intro colours picks hnd hlen
    have hpos : 0 < colours.length := lt_of_lt_of_le (Nat.succ_pos n) hlen
    have hidx : (picks.headD (0, 1)).1 % colours.length < colours.length :=
      Nat.mod_lt _ hpos
    have hget : colours.get? ((picks.headD (0, 1)).1 % colours.length) =
        some (colours.get ⟨(picks.headD (0, 1)).1 % colours.length, hidx⟩) :=
      List.get?_eq_get hidx
    have hmem : colours.get ⟨(picks.headD (0, 1)).1 % colours.length, hidx⟩ ∈ colours :=
      List.get_mem _ _ _
    generalize hc : colours.get ⟨(picks.headD (0, 1)).1 % colours.length, hidx⟩ = colour at hget hmem
    have heq : generate_goalsAux (n + 1) colours picks =
        (if (picks.headD (0, 1)).2 = 1 then Goal.blobGoal colour
         else Goal.perimeterGoal colour)
          :: generate_goalsAux n (colours.erase colour) picks.tail := by
      simp only [generate_goalsAux]
      rw [hget]
    have hnd' : (colours.erase colour).Nodup := hnd.erase colour
    have hlen' : n ≤ (colours.erase colour).length := by
      have := List.length_erase_of_mem hmem
      omega
    obtain ⟨ihlen, ihnd, ihsub, ihkind⟩ := ih (colours.erase colour) picks.tail hnd' hlen'
    have hnotmem : colour ∉ colours.erase colour := hnd.not_mem_erase
    have hheadcol :
        (if (picks.headD (0, 1)).2 = 1 then Goal.blobGoal colour
         else Goal.perimeterGoal colour).colour = colour := by
      split <;> rfl
    refine ⟨?_, ?_, ?_, ?_⟩
    · simp [heq, ihlen]
    · rw [heq]
      simp only [List.map_cons, List.nodup_cons, hheadcol]
      refine ⟨?_, ihnd⟩
      intro hcin
      obtain ⟨g, hg, hgc⟩ := List.mem_map.mp hcin
      exact hnotmem (hgc ▸ ihsub g hg)
    · intro g hg
      rw [heq, List.mem_cons] at hg
      rcases hg with hg | hg
      · subst hg
        rw [hheadcol]
        exact hmem
      · exact List.mem_of_mem_erase (ihsub g hg)
    · intro g hg
      rw [heq, List.mem_cons] at hg
      rcases hg with hg | hg
      · subst hg
        split
        · exact Or.inl ⟨colour, rfl⟩
        · exact Or.inr ⟨colour, rfl⟩
      · exact ihkind g hg

/-- C8: for every `count` at most the palette size and every sequence of
random draws, `generate_goals count` returns exactly `count` goals, their
target colours are pairwise distinct and all drawn from the palette, and
each goal is either a perimeter goal or a blob goal. -/
theorem generate_goals_spec (count : Nat) (picks : List (Nat × Nat))
    (hcount : count ≤ COLOUR_LIST.length) :
    (generate_goals count picks).length = count ∧
    ((generate_goals count picks).map Goal.colour).Nodup ∧
    (∀ g ∈ generate_goals count picks, g.colour ∈ COLOUR_LIST) ∧
    (∀ g ∈ generate_goals count picks,
      (∃ c, g = Goal.blobGoal c) ∨ (∃ c, g = Goal.perimeterGoal c)) := by
  have hnd : COLOUR_LIST.Nodup := by decide
  exact generate_goalsAux_spec count COLOUR_LIST picks hnd hcount

/-- Witness for C8 at `count = 3` with a concrete draw sequence. -/
theorem generate_goals_spec_witness :
    (3 ≤ COLOUR_LIST.length) ∧
    ((generate_goals 3 [(2, 1), (0, 2), (5, 1)]).length = 3 ∧
      ((generate_goals 3 [(2, 1), (0, 2), (5, 1)]).map Goal.colour).Nodup ∧
      (∀ g ∈ generate_goals 3 [(2, 1), (0, 2), (5, 1)], g.colour ∈ COLOUR_LIST) ∧
      (∀ g ∈ generate_goals 3 [(2, 1), (0, 2), (5, 1)],
        (∃ c, g = Goal.blobGoal c) ∨ (∃ c, g = Goal.perimeterGoal c))) :=
  ⟨by decide, generate_goals_spec 3 [(2, 1), (0, 2), (5, 1)] (by decide)⟩

/-- C9: `colour_name` fails with the unknown-colour error exactly on colours
outside the fixed palette, and on every palette colour it returns that
colour's human-readable name (so an unknown colour is never silently given a
default name). -/
theorem colour_name_spec :
    (∀ c : Colour, (∃ s, colour_name c = Except.ok s) ↔ c ∈ COLOUR_LIST) ∧
    (∀ c : Colour, c ∉ COLOUR_LIST → colour_name c = Except.error ()) ∧
    colour_name PACIFIC_POINT = Except.ok "Pacific Point" ∧
    colour_name REAL_RED = Except.ok "Real Red" ∧
    colour_name OLD_OLIVE = Except.ok "Old Olive" ∧
    colour_name DAFFODIL_DELIGHT = Except.ok "Daffodil Delight" := by
  have hkeys : ∀ c : Colour, c ∈ COLOUR_LIST ↔ (colour_names.lookup c).isSome := by
    intro c
    constructor
    · intro hc
      fin_cases hc <;> decide
    · intro hc
      by_contra hmem
      have h1 : c ≠ PACIFIC_POINT := fun h => hmem (h ▸ by decide)
      have h2 : c ≠ REAL_RED := fun h => hmem (h ▸ by decide)
      have h3 : c ≠ OLD_OLIVE := fun h => hmem (h ▸ by decide)
      have h4 : c ≠ DAFFODIL_DELIGHT := fun h => hmem (h ▸ by decide)
      have b1 : (c == PACIFIC_POINT) = false := beq_eq_false_iff_ne.mpr h1
      have b2 : (c == REAL_RED) = false := beq_eq_false_iff_ne.mpr h2
      have b3 : (c == OLD_OLIVE) = false := beq_eq_false_iff_ne.mpr h3
      have b4 : (c == DAFFODIL_DELIGHT) = false := beq_eq_false_iff_ne.mpr h4
      simp [colour_names, List.lookup, b1, b2, b3, b4] at hc
  refine ⟨?_, ?_, rfl, rfl, rfl, rfl⟩
  · intro c
    rw [hkeys c]
    unfold colour_name
    cases h : colour_names.lookup c <;> simp [h]
  · intro c hc
    have := (hkeys c).not.mp hc
    unfold colour_name
    cases h : colour_names.lookup c <;> simp_all

/-- A concrete valid board used to instantiate universally quantified
theorems: a uniform leaf of Real Red, side 4, level 0, depth 2. -/
def sampleLeaf : Block := .leaf (0, 0) 4 0 2 REAL_RED

/-- goal.py `PerimeterGoal.score`: flatten the board and, for each index
`i` below the grid side `n` (the length of the flattened list, equal to
`2 ^ (max_depth - level)`), add one for each of the four boundary tests
`grid[0][i]`, `grid[i][0]`, `grid[i][n-1]`, `grid[n-1][i]` whose cell
equals the target colour. -/
def perimeterScore (target : Colour) (board : Block) : Nat :=
  (List.range board.gridSide).foldl
    (fun count i =>
      count +
        (if flatten board 0 i = some target then 1 else 0) +
        (if flatten board i 0 = some target then 1 else 0) +
        (if flatten board i (board.gridSide - 1) = some target then 1 else 0) +
        (if flatten board (board.gridSide - 1) i = some target then 1 else 0))
    0

/-- A concrete valid board used to instantiate universally quantified
theorems: a 2 by 2 board of four Real Red unit leaves. -/
def sampleQuad : Block :=
  .node (0, 0) 2 0 1
    (.leaf (1, 0) 1 1 1 REAL_RED) (.leaf (0, 0) 1 1 1 REAL_RED)
    (.leaf (0, 1) 1 1 1 REAL_RED) (.leaf (1, 1) 1 1 1 REAL_RED)

/-- The containment test of player.py `_get_block`: a block includes a
location that is on or after its top-left corner and strictly before its
bottom-right corner (closed low edge, open high edge, both axes). -/
def containsPt (b : Block) (loc : Int × Int) : Prop :=
  b.position.1 ≤ loc.1 ∧ loc.1 < b.position.1 + (b.size : Int) ∧
  b.position.2 ≤ loc.2 ∧ loc.2 < b.position.2 + (b.size : Int)

/-- player.py `_get_block`: return the Block within `block` at `level` that
includes `location`; when the location is outside the block return `None`;
when `level` equals the block's level, or the block is a leaf (colour
present), return the block itself; otherwise scan the children in order and
return the first recursive hit (the Python loop calls the recursion twice
per child, but it is pure, so once is the same).  The `level` argument is an
integer because callers may pass values outside `[0, max_depth]`. -/
def getBlock : Block → Int × Int → Int → Option Block
  | .leaf p s lvl md c, location, _ =>
      if p.1 ≤ location.1 ∧ location.1 < p.1 + (s : Int) ∧
          p.2 ≤ location.2 ∧ location.2 < p.2 + (s : Int) then
        some (.leaf p s lvl md c)
      else none
  | .node p s lvl md c0 c1 c2 c3, location, level =>
      if p.1 ≤ location.1 ∧ location.1 < p.1 + (s : Int) ∧
          p.2 ≤ location.2 ∧ location.2 < p.2 + (s : Int) then
        if level = (lvl : Int) then some (.node p s lvl md c0 c1 c2 c3)
        else
          match getBlock c0 location level with
          | some r => some r
          | none =>
            match getBlock c1 location level with
            | some r => some r
            | none =>
              match getBlock c2 location level with
              | some r => some r
              | none =>
                match getBlock c3 location level with
                | some r => some r
                | none => none
      else none

/-- Modelled from the spec: the fixed set of named board-mutating
operations of the external Action collaborator, plus the distinguished
no-op pass action. -/
inductive ActionKind where
  | rotateClockwise
  | rotateCounterClockwise
  | swapHorizontal
  | swapVertical
  | smash
  | paint
  | combine
  | pass
deriving DecidableEq, Repr

/-- Modelled from the spec: the external Action collaborator — a named
operation with an integer penalty; its validity-checked `apply` on a board
node is external and appears in the embedding only through each draw's
recorded outcome.  (Named `GameAction` because the source's name `Action`
is taken by the ambient library.) -/
structure GameAction where
  kind : ActionKind
  penalty : Int
deriving DecidableEq, Repr

/-- Modelled from the spec: the distinguished pass action returned by
`SmartPlayer.generate_move` as its fallback (its penalty value is external
and unused by the verified code; `0` is a placeholder). -/
def PASS : GameAction := ⟨ActionKind.pass, 0⟩

/-- Modelled from the spec: `create_copy()` yields a fully independent deep
copy of a board; in this value-level embedding the copy is the same value,
and the external `apply` only ever receives the copy, never the original. -/
def Block.createCopy (b : Block) : Block := b

/-- The random draws of one iteration of the computer players' sampling
loop, together with the externally determined outcome of `Action.apply` on
the copy's located node: `applyOutcome` is `some copyAfter` when `apply`
reports success, where `copyAfter` is the disposable copy after the
mutation (the board the smart player then scores), and `none` when `apply`
fails. -/
structure Draw where
  action : GameAction
  x : Int
  y : Int
  level : Int
  applyOutcome : Option Block
deriving DecidableEq, Repr

/-- The net worth of a recorded trial in player.py
`SmartPlayer.generate_move`: `total[i][2] - total[i][0].penalty` (resulting
score minus the action's penalty). -/
def netGain (tr : GameAction × Option Block × Nat) : Int :=
  (tr.2.2 : Int) - tr.1.penalty

/-- One step of the selection loop of player.py `SmartPlayer.generate_move`:
replace the current best exactly when the trial's net strictly exceeds it. -/
def smartStep (acc : Int × Option (GameAction × Option Block))
    (tr : GameAction × Option Block × Nat) : Int × Option (GameAction × Option Block) :=
  if netGain tr > acc.1 then (netGain tr, some (tr.1, tr.2.1)) else acc

/-- The selection loop of player.py `SmartPlayer.generate_move`: starting
from `best_score = baseline` (the goal's score on the unmodified board) and
`best_move = None`, fold the recorded trials through `smartStep`. -/
def smartSelect (baseline : Nat) (total : List (GameAction × Option Block × Nat)) :
    Int × Option (GameAction × Option Block) :=
  total.foldl smartStep ((baseline : Int), none)

/-- The tail of player.py `SmartPlayer.generate_move`: if the best score
does not strictly exceed the goal's score on the (unmutated) real board —
recomputed there, equal to `baseline` — return the pass action targeting
the real board, otherwise return the best recorded move (which is present
whenever the best score exceeds the baseline). -/
def smartChoose (board : Block) (baseline : Nat)
    (total : List (GameAction × Option Block × Nat)) : Option (GameAction × Option Block) :=
  if (smartSelect baseline total).1 ≤ (baseline : Int) then some (PASS, some board)
  else (smartSelect baseline total).2

/-- The trial loop of player.py `SmartPlayer.generate_move`: per draw, make
one fresh copy of the real board, locate the drawn coordinate independently
on the real board and on the copy, attempt the action on the copy's node,
and on success record (action, real-board node, score of the mutated copy).
`score` is the player's goal's scoring function. -/
def smartTrials (score : Block → Nat) (board : Block) :
    List Draw → List (GameAction × Option Block × Nat)
  | [] => []
  | d :: rest =>
      let newBoard := board.createCopy
      let actualMove := getBlock board (d.x, d.y) d.level
      let _copyMove := getBlock newBoard (d.x, d.y) d.level
      match d.applyOutcome with
      | some copyAfter => (d.action, actualMove, score copyAfter) :: smartTrials score board rest
      | none => smartTrials score board rest

/-- player.py `SmartPlayer.generate_move`, with the randomness explicit:
when triggered, run exactly `difficulty` trial draws (one fresh copy each),
then select as `smartChoose`; when not triggered return nothing.  The
second component is the real board as left by the call. -/
def smartGenerateMove (board : Block) (proceed : Bool) (difficulty : Nat)
    (score : Block → Nat) (draws : List Draw) :
    Option (GameAction × Option Block) × Block :=
  if proceed then
    (smartChoose board (score board) (smartTrials score board (draws.take difficulty)),
      board)
  else (none, board)

/-- player.py `RandomPlayer.generate_move`, with the randomness explicit:
when triggered, repeatedly draw (one fresh copy per draw) until a draw's
`apply` succeeds on the copy, then return that action with the node located
in the real board.  Python's retry loop has no attempt cap; exhausting the
modelled draw list without a success stands for the non-terminating case
and yields nothing.  The second component is the real board as left by the
call. -/
def randomGenerateMove : Block → Bool → List Draw → Option (GameAction × Option Block) × Block
  | board, false, _ => (none, board)
  | board, true, [] => (none, board)
  | board, true, d :: rest =>
      let newBoard := board.createCopy
      let actualMove := getBlock board (d.x, d.y) d.level
      let _copyMove := getBlock newBoard (d.x, d.y) d.level
      match d.applyOutcome with
      | some _ => (some (d.action, actualMove), board)
      | none => randomGenerateMove board true rest

/-- Python's `random.randint(low, high)` draws uniformly from the closed
interval `[low, high]` and raises `ValueError` when the interval is empty;
modelled as the set of possible results, `none` for the raising case. -/
def randint (low high : Int) : Option (Finset Int) :=
  if low ≤ high then some (Finset.Icc low high) else none

/-- The x draw of the shared sampling step of `RandomPlayer.generate_move`
and `SmartPlayer.generate_move`:
`random.randint(new_board.position[0], board.size - 1)` (the copy shares
the real board's position). -/
def sampleXRange (board : Block) : Option (Finset Int) :=
  randint board.position.1 ((board.size : Int) - 1)

/-- The y draw of the shared sampling step:
`random.randint(new_board.position[1], board.size - 1)`. -/
def sampleYRange (board : Block) : Option (Finset Int) :=
  randint board.position.2 ((board.size : Int) - 1)

/-- player.py `HumanPlayer` state: the traversal depth most recently chosen
with the W/S keys (an integer: the code lets it go negative until the next
failed query re-clamps it) and the pending desired action. -/
structure HumanPlayer where
  level : Int
  desiredAction : Option GameAction
deriving DecidableEq, Repr

/-- player.py `HumanPlayer.generate_move`: look up the block under the
mouse at the player's level; if the lookup fails or no action is pending,
re-clamp the level to `[0, max_depth]`, clear the pending action and return
nothing; otherwise return the pending (action, block) pair and clear the
pending action. -/
def humanGenerateMove (p : HumanPlayer) (board : Block) (mousePos : Int × Int) :
    Option (GameAction × Block) × HumanPlayer :=
  match getBlock board mousePos p.level, p.desiredAction with
  | some blk, some act => (some (act, blk), { p with desiredAction := none })
  | _, _ =>
      (none,
        { p with
          level := max 0 (min p.level (board.maxDepth : Int)),
          desiredAction := none })

/-- The visitation map of goal.py `BlobGoal._undiscovered_blob_size`: per
cell, `-1` never visited, `0` visited and not of the target colour, `1`
visited and of the target colour.  Modelled as a total function; cells
outside the grid are never written and stay `-1`. -/
abbrev Visited := Nat → Nat → Int

/-- Writing one cell of the visitation map (`visited[x][y] = value`). -/
def updV (v : Visited) (x y : Nat) (value : Int) : Visited :=
  fun a b => if a = x ∧ b = y then value else v a b

/-- goal.py `BlobGoal._undiscovered_blob_size`: the size of the
undiscovered blob of the target colour through `pos`, marking `visited` as
it explores.  Out-of-bounds positions score 0; an already-visited cell
scores 0; a non-target cell is marked 0 and scores 0; a target cell is
marked 1, the four neighbours (+x, -x, +y, -y in that order) are explored
with the updated map threaded through, and the call scores their sum plus
one.  Python's recursion terminates because every recursive call happens
after one more cell is marked; the explicit `fuel` mirrors that: the
callers below always supply more fuel than there are unvisited cells, and
`ubs_spec` shows the fuel case is then never reached. -/
def ubs (target : Colour) (g : Grid) (n : Nat) :
    Nat → Int × Int → Visited → Nat × Visited
  | 0, _, v => (0, v)
  | fuel + 1, pos, v =>
    if pos.1 < 0 ∨ (n : Int) ≤ pos.1 ∨ pos.2 < 0 ∨ (n : Int) ≤ pos.2 then (0, v)
    else
      if v pos.1.toNat pos.2.toNat ≠ -1 then (0, v)
      else if g pos.1.toNat pos.2.toNat ≠ some target then
        (0, updV v pos.1.toNat pos.2.toNat 0)
      else
        match ubs target g n fuel (pos.1 + 1, pos.2) (updV v pos.1.toNat pos.2.toNat 1) with
        | (c1, v1) =>
          match ubs target g n fuel (pos.1 - 1, pos.2) v1 with
          | (c2, v2) =>
            match ubs target g n fuel (pos.1, pos.2 + 1) v2 with
            | (c3, v3) =>
              match ubs target g n fuel (pos.1, pos.2 - 1) v3 with
              | (c4, v4) => (c1 + c2 + c3 + c4 + 1, v4)

/-- The scan order of goal.py `BlobGoal.score`: all cells `(i, j)` of the
grid, outer loop `i`, inner loop `j`. -/
def allCells (n : Nat) : List (Nat × Nat) :=
  (List.range n).flatMap (fun i => (List.range n).map (fun j => (i, j)))

/-- The accumulation loop of goal.py `BlobGoal.score`: call
`_undiscovered_blob_size` at every scan position with the single shared
visitation map threaded through, collecting the returned sizes. -/
def blobFold (target : Colour) (g : Grid) (n : Nat) :
    List (Nat × Nat) → Visited → List Nat × Visited
  | [], v => ([], v)
  | p :: rest, v =>
      match ubs target g n (n * n + 1) ((p.1 : Int), (p.2 : Int)) v with
      | (c, vv) =>
        match blobFold target g n rest vv with
        | (res, vF) => (c :: res, vF)

/-- goal.py `BlobGoal.score`: flatten the board, start from an
all-unvisited map, collect the blob size at every scan position, and return
the maximum (Python's `max` over the list, which is nonempty since the grid
side is at least 1; all entries are nonnegative, so folding `max` from 0 is
the same value). -/
def blobScore (target : Colour) (board : Block) : Nat :=
  ((blobFold target (flatten board) board.gridSide (allCells board.gridSide)
      (fun _ _ => -1)).1).foldl max 0

/-- A cell of the flattened grid carrying the target colour. -/
def targetCell (target : Colour) (g : Grid) (n : Nat) (p : Nat × Nat) : Prop :=
  p.1 < n ∧ p.2 < n ∧ g p.1 p.2 = some target

/-- 4-connectedness (up/down/left/right, no diagonals) between two target
cells of the grid. -/
def adjCell (target : Colour) (g : Grid) (n : Nat) (p q : Nat × Nat) : Prop :=
  targetCell target g n p ∧ targetCell target g n q ∧
  ((p.1 = q.1 ∧ (p.2 + 1 = q.2 ∨ q.2 + 1 = p.2)) ∨
    (p.2 = q.2 ∧ (p.1 + 1 = q.1 ∨ q.1 + 1 = p.1)))

/-- The 4-connected region (blob) of the grid through `p`: all cells
reachable from `p` by chains of 4-adjacent target cells. -/
def blobComp (target : Colour) (g : Grid) (n : Nat) (p : Nat × Nat) : Set (Nat × Nat) :=
  {q | Relation.ReflTransGen (adjCell target g n) p q}

/-- The cells newly marked `1` between two visitation maps. -/
def newOnes (n : Nat) (v vv : Visited) : Finset (Nat × Nat) :=
  (Finset.range n ×ˢ Finset.range n).filter
    (fun q => v q.1 q.2 = -1 ∧ vv q.1 q.2 = 1)

/-- The number of grid cells still unvisited. -/
def unvisCount (n : Nat) (v : Visited) : Nat :=
  ((Finset.range n ×ˢ Finset.range n).filter (fun q => v q.1 q.2 = -1)).card

/-- A concrete valid 4 by 4 board whose Real Red cells form two blobs that
are not 4-connected to each other: an L of size 3 in the top-left corner
and the full right column of size 4. -/
def sampleTwoBlobs : Block :=
  .node (0, 0) 4 0 2
    (.node (2, 0) 2 1 2
      (.leaf (3, 0) 1 2 2 REAL_RED) (.leaf (2, 0) 1 2 2 PACIFIC_POINT)
      (.leaf (2, 1) 1 2 2 PACIFIC_POINT) (.leaf (3, 1) 1 2 2 REAL_RED))
    (.node (0, 0) 2 1 2
      (.leaf (1, 0) 1 2 2 REAL_RED) (.leaf (0, 0) 1 2 2 REAL_RED)
      (.leaf (0, 1) 1 2 2 REAL_RED) (.leaf (1, 1) 1 2 2 PACIFIC_POINT))
    (.leaf (0, 2) 2 1 2 PACIFIC_POINT)
    (.node (2, 2) 2 1 2
      (.leaf (3, 2) 1 2 2 REAL_RED) (.leaf (2, 2) 1 2 2 PACIFIC_POINT)
      (.leaf (2, 3) 1 2 2 PACIFIC_POINT) (.leaf (3, 3) 1 2 2 REAL_RED))

/-- The postconditions of one goal.py `_undiscovered_blob_size` call,
relating the input visitation map `v` to the returned count `c` and map
`vv`: marks persist, marks stay inside the grid, new marks are sound, the
count is the number of newly written 1-marks, every new 1-mark is reachable
from the call position, a productive call sits on an unvisited in-bounds
target cell, all 4-neighbours of new 1-marks end up visited, and an
in-bounds call position ends up visited. -/
structure UbsOut (t : Colour) (g : Grid) (n : Nat) (pos : Int × Int)
    (v : Visited) (c : Nat) (vv : Visited) : Prop where
  persist : ∀ x y, v x y ≠ -1 → vv x y = v x y
  outside : ∀ x y, ¬(x < n ∧ y < n) → vv x y = -1
  sound0 : ∀ x y, v x y = -1 → vv x y = 0 → x < n ∧ y < n ∧ g x y ≠ some t
  sound1 : ∀ x y, v x y = -1 → vv x y = 1 → x < n ∧ y < n ∧ g x y = some t
  count : c = (newOnes n v vv).card
  reach : ∀ x y, v x y = -1 → vv x y = 1 →
    Relation.ReflTransGen (adjCell t g n) (pos.1.toNat, pos.2.toNat) (x, y)
  workInfo : (∃ x y, v x y = -1 ∧ vv x y = 1) →
    0 ≤ pos.1 ∧ pos.1 < (n : Int) ∧ 0 ≤ pos.2 ∧ pos.2 < (n : Int) ∧
    v pos.1.toNat pos.2.toNat = -1 ∧ vv pos.1.toNat pos.2.toNat = 1
  closure : ∀ x y, v x y = -1 → vv x y = 1 →
    ∀ q : Nat × Nat, adjCell t g n (x, y) q → vv q.1 q.2 ≠ -1
  visitedAfter : 0 ≤ pos.1 → pos.1 < (n : Int) → 0 ≤ pos.2 → pos.2 < (n : Int) →
    vv pos.1.toNat pos.2.toNat ≠ -1
  range : ∀ x y, v x y = -1 → vv x y = -1 ∨ vv x y = 0 ∨ vv x y = 1

/-- The invariant of the `BlobGoal.score` scan over the shared visitation
map: marks live inside the grid and take values in `{-1, 0, 1}`, 0-marks
sit on non-target cells, 1-marks sit on target cells, and the 1-marked
cells form a union of complete blobs (every target cell 4-adjacent to a
1-marked cell is itself 1-marked). -/
structure TopInv (t : Colour) (g : Grid) (n : Nat) (v : Visited) : Prop where
  outside : ∀ x y, ¬(x < n ∧ y < n) → v x y = -1
  wf : ∀ x y, v x y = -1 ∨ v x y = 0 ∨ v x y = 1
  sound0 : ∀ x y, v x y = 0 → x < n ∧ y < n ∧ g x y ≠ some t
  sound1 : ∀ x y, v x y = 1 → x < n ∧ y < n ∧ g x y = some t
  closed : ∀ p q : Nat × Nat, v p.1 p.2 = 1 → adjCell t g n p q → v q.1 q.2 = 1

/-- A cell coordinate is written by a splice loop exactly when it lies in
the loop's `m × m` box at `(ox, oy)`. -/
theorem mem_quadWrites {ox oy m : Nat} {p : Nat × Nat} :
    p ∈ quadWrites ox oy m ↔ ox ≤ p.1 ∧ p.1 < ox + m ∧ oy ≤ p.2 ∧ p.2 < oy + m := by
  obtain ⟨a, b⟩ := p
  constructor
  · intro hp
    simp only [quadWrites, List.mem_flatMap, List.mem_map, List.mem_range] at hp
    obtain ⟨i, hi, j, hj, hji⟩ := hp
    obtain ⟨rfl, rfl⟩ := Prod.mk.injEq .. ▸ hji
    refine ⟨by omega, by omega, by omega, by omega⟩
  · rintro ⟨h1, h2, h3, h4⟩
    simp only [quadWrites, List.mem_flatMap, List.mem_map, List.mem_range]
    refine ⟨b - oy, by omega, a - ox, by omega, ?_⟩
    simp only [Prod.mk.injEq]
    omega

/-- One splice loop never writes the same cell twice. -/
theorem nodup_quadWrites (ox oy m : Nat) : (quadWrites ox oy m).Nodup := by
  rw [quadWrites, List.nodup_flatMap]
  constructor
  · intro i _
    refine (List.nodup_range m).map ?_
    intro a b hab
    simpa using congrArg Prod.fst hab
  · refine (List.pairwise_lt_range m).imp ?_
    intro i j hij
    intro p hp hq
    simp only [List.mem_map, List.mem_range] at hp hq
    obtain ⟨a, _, rfl⟩ := hp
    obtain ⟨b, _, hba⟩ := hq
    have := congrArg Prod.snd hba
    simp only at this
    omega

/-- Consequences of the Board invariant at an internal node: each child's
splice offset is its quadrant corner in parent unit cells (`0` or half the
parent's grid side), each child's grid side is half the parent's, and the
children are themselves valid. -/
theorem node_facts {px py : Int} {s lvl md : Nat} {c0 c1 c2 c3 : Block}
    (h : Block.valid (.node (px, py) s lvl md c0 c1 c2 c3)) :
    childOffset (px, py) (s / 2 ^ (md - lvl)) c0 = (2 ^ (md - (lvl + 1)), 0) ∧
    childOffset (px, py) (s / 2 ^ (md - lvl)) c1 = (0, 0) ∧
    childOffset (px, py) (s / 2 ^ (md - lvl)) c2 = (0, 2 ^ (md - (lvl + 1))) ∧
    childOffset (px, py) (s / 2 ^ (md - lvl)) c3 =
      (2 ^ (md - (lvl + 1)), 2 ^ (md - (lvl + 1))) ∧
    c0.gridSide = 2 ^ (md - (lvl + 1)) ∧ c1.gridSide = 2 ^ (md - (lvl + 1)) ∧
    c2.gridSide = 2 ^ (md - (lvl + 1)) ∧ c3.gridSide = 2 ^ (md - (lvl + 1)) ∧
    (Block.node (px, py) s lvl md c0 c1 c2 c3).gridSide =
      2 ^ (md - (lvl + 1)) + 2 ^ (md - (lvl + 1)) ∧
    c0.valid ∧ c1.valid ∧ c2.valid ∧ c3.valid := by
  simp only [Block.valid] at h
  obtain ⟨hlt, hs, hdvd, hp0, hp1, hp2, hp3, hs0, hs1, hs2, hs3,
    hl0, hl1, hl2, hl3, hm0, hm1, hm2, hm3, hv0, hv1, hv2, hv3⟩ := h
  have hmd : md - lvl = (md - (lvl + 1)) + 1 := by omega
  have hn2 : 2 ^ (md - lvl) = 2 ^ (md - (lvl + 1)) * 2 := by
    rw [hmd, pow_succ]
  have hsu : s = 2 ^ (md - (lvl + 1)) * 2 * (s / 2 ^ (md - lvl)) := by
    rw [← hn2]
    exact (Nat.mul_div_cancel' hdvd).symm
  have hupos : 0 < s / 2 ^ (md - lvl) := by
    rcases Nat.eq_zero_or_pos (s / 2 ^ (md - lvl)) with h0 | h0
    · rw [h0, Nat.mul_zero] at hsu
      omega
    · exact h0
  have hhalf : s / 2 = 2 ^ (md - (lvl + 1)) * (s / 2 ^ (md - lvl)) := by
    conv_lhs => rw [hsu]
    rw [show 2 ^ (md - (lvl + 1)) * 2 * (s / 2 ^ (md - lvl)) =
      2 ^ (md - (lvl + 1)) * (s / 2 ^ (md - lvl)) * 2 by ring]
    exact Nat.mul_div_cancel _ (by norm_num)
  have keyHalf : (((s / 2 : Nat) : Int).fdiv ((s / 2 ^ (md - lvl) : Nat) : Int)).toNat =
      2 ^ (md - (lvl + 1)) := by
    rw [← Int.ofNat_fdiv, hhalf, Nat.mul_div_cancel _ hupos]
    exact Int.toNat_ofNat _
  have keyZero : ((0 : Int).fdiv ((s / 2 ^ (md - lvl) : Nat) : Int)).toNat = 0 := by
    rw [Int.zero_fdiv]
    rfl
  have off0 : childOffset (px, py) (s / 2 ^ (md - lvl)) c0 = (2 ^ (md - (lvl + 1)), 0) := by
    rw [childOffset, hp0]
    simp only [add_sub_cancel_left, sub_self, keyHalf, keyZero]
  have off1 : childOffset (px, py) (s / 2 ^ (md - lvl)) c1 = (0, 0) := by
    rw [childOffset, hp1]
    simp only [sub_self, keyZero]
  have off2 : childOffset (px, py) (s / 2 ^ (md - lvl)) c2 = (0, 2 ^ (md - (lvl + 1))) := by
    rw [childOffset, hp2]
    simp only [add_sub_cancel_left, sub_self, keyHalf, keyZero]
  have off3 : childOffset (px, py) (s / 2 ^ (md - lvl)) c3 =
      (2 ^ (md - (lvl + 1)), 2 ^ (md - (lvl + 1))) := by
    rw [childOffset, hp3]
    simp only [add_sub_cancel_left, keyHalf]
  refine ⟨off0, off1, off2, off3, ?_, ?_, ?_, ?_, ?_, hv0, hv1, hv2, hv3⟩
  · rw [Block.gridSide, hm0, hl0]
  · rw [Block.gridSide, hm1, hl1]
  · rw [Block.gridSide, hm2, hl2]
  · rw [Block.gridSide, hm3, hl3]
  · show 2 ^ (md - lvl) = _
    rw [hn2]
    ring

/-- Evaluating `flatten` at an internal node of a valid board: the cell is
drawn from the child whose quadrant box contains it (later children shadow
earlier ones, though the boxes are disjoint), and is unfilled outside all
four boxes. -/
theorem flatten_node_eq {px py : Int} {s lvl md : Nat} {c0 c1 c2 c3 : Block}
    (h : Block.valid (.node (px, py) s lvl md c0 c1 c2 c3)) (x y : Nat) :
    flatten (.node (px, py) s lvl md c0 c1 c2 c3) x y =
      if 2 ^ (md - (lvl + 1)) ≤ x ∧ x < 2 ^ (md - (lvl + 1)) + 2 ^ (md - (lvl + 1)) ∧
          2 ^ (md - (lvl + 1)) ≤ y ∧ y < 2 ^ (md - (lvl + 1)) + 2 ^ (md - (lvl + 1)) then
        flatten c3 (x - 2 ^ (md - (lvl + 1))) (y - 2 ^ (md - (lvl + 1)))
      else if 0 ≤ x ∧ x < 0 + 2 ^ (md - (lvl + 1)) ∧ 2 ^ (md - (lvl + 1)) ≤ y ∧
          y < 2 ^ (md - (lvl + 1)) + 2 ^ (md - (lvl + 1)) then
        flatten c2 (x - 0) (y - 2 ^ (md - (lvl + 1)))
      else if 0 ≤ x ∧ x < 0 + 2 ^ (md - (lvl + 1)) ∧ 0 ≤ y ∧
          y < 0 + 2 ^ (md - (lvl + 1)) then
        flatten c1 (x - 0) (y - 0)
      else if 2 ^ (md - (lvl + 1)) ≤ x ∧ x < 2 ^ (md - (lvl + 1)) + 2 ^ (md - (lvl + 1)) ∧
          0 ≤ y ∧ y < 0 + 2 ^ (md - (lvl + 1)) then
        flatten c0 (x - 2 ^ (md - (lvl + 1))) (y - 0)
      else none := by
  obtain ⟨off0, off1, off2, off3, hg0, hg1, hg2, hg3, _, _, _, _, _⟩ := node_facts h
  simp only [flatten, off0, off1, off2, off3, hg0, hg1, hg2, hg3, spliceAt, emptyGrid]

/-- On a valid board, `flatten` fills every cell of the `n × n` grid (no
gaps). -/
theorem flatten_isSome (b : Block) (hb : b.valid) :
    ∀ x y, x < b.gridSide → y < b.gridSide → (flatten b x y).isSome := by
  induction b with
  | leaf p s lvl md c =>
    intro x y hx hy
    rw [Block.gridSide] at hx hy
    simp only [flatten, Block.maxDepth, Block.level] at *
    rw [if_pos ⟨hx, hy⟩]
    rfl
  | node p s lvl md c0 c1 c2 c3 ih0 ih1 ih2 ih3 =>
    obtain ⟨px, py⟩ := p
    obtain ⟨_, _, _, _, hg0, hg1, hg2, hg3, hgn, hv0, hv1, hv2, hv3⟩ := node_facts hb
    intro x y hx hy
    rw [hgn] at hx hy
    rw [flatten_node_eq hb]
    split_ifs with h3 h2 h1 h0
    · exact ih3 hv3 _ _ (by rw [hg3]; omega) (by rw [hg3]; omega)
    · exact ih2 hv2 _ _ (by rw [hg2]; omega) (by rw [hg2]; omega)
    · exact ih1 hv1 _ _ (by rw [hg1]; omega) (by rw [hg1]; omega)
    · exact ih0 hv0 _ _ (by rw [hg0]; omega) (by rw [hg0]; omega)
    · omega

/-- On a valid board, `flatten` leaves everything outside the `n × n` grid
unfilled (the grid is exactly `n` columns by `n` rows). -/
theorem flatten_outside (b : Block) (hb : b.valid) :
    ∀ x y, b.gridSide ≤ x ∨ b.gridSide ≤ y → flatten b x y = none := by
  cases b with
  | leaf p s lvl md c =>
    intro x y hxy
    rw [Block.gridSide] at hxy
    simp only [Block.maxDepth, Block.level] at hxy
    simp only [flatten]
    exact if_neg (by omega)
  | node p s lvl md c0 c1 c2 c3 =>
    obtain ⟨px, py⟩ := p
    obtain ⟨_, _, _, _, _, _, _, _, hgn, _, _, _, _⟩ := node_facts hb
    intro x y hxy
    rw [hgn] at hxy
    rw [flatten_node_eq hb]
    rw [if_neg (by omega), if_neg (by omega), if_neg (by omega), if_neg (by omega)]

/-- On a valid board, the cells written by one `flatten` invocation are
exactly the cells of its `n × n` grid. -/
theorem cellWrites_mem (b : Block) (hb : b.valid) (p : Nat × Nat) :
    p ∈ cellWrites b ↔ p.1 < b.gridSide ∧ p.2 < b.gridSide := by
  cases b with
  | leaf pos s lvl md c =>
    rw [cellWrites, mem_quadWrites, Block.gridSide]
    simp only [Block.maxDepth, Block.level]
    omega
  | node pos s lvl md c0 c1 c2 c3 =>
    obtain ⟨px, py⟩ := pos
    obtain ⟨off0, off1, off2, off3, hg0, hg1, hg2, hg3, hgn, _, _, _, _⟩ := node_facts hb
    rw [hgn]
    simp only [cellWrites, List.flatMap_cons, List.flatMap_nil, List.append_nil,
      List.mem_append, mem_quadWrites, off0, off1, off2, off3, hg0, hg1, hg2, hg3]
    omega

/-- On a valid board, no cell is written twice by one `flatten` invocation:
the four splice loops hit pairwise disjoint quadrants and each loop is
duplicate-free. -/
theorem cellWrites_nodup (b : Block) (hb : b.valid) : (cellWrites b).Nodup := by
  cases b with
  | leaf pos s lvl md c => exact nodup_quadWrites _ _ _
  | node pos s lvl md c0 c1 c2 c3 =>
    obtain ⟨px, py⟩ := pos
    obtain ⟨off0, off1, off2, off3, hg0, hg1, hg2, hg3, _, _, _, _, _⟩ := node_facts hb
    simp only [cellWrites, List.flatMap_cons, List.flatMap_nil, List.append_nil]
    simp only [off0, off1, off2, off3, hg0, hg1, hg2, hg3]
    have disj : ∀ ox oy ox' oy' : Nat,
        (ox' + 2 ^ (md - (lvl + 1)) ≤ ox ∨ ox + 2 ^ (md - (lvl + 1)) ≤ ox' ∨
          oy' + 2 ^ (md - (lvl + 1)) ≤ oy ∨ oy + 2 ^ (md - (lvl + 1)) ≤ oy') →
        (quadWrites ox oy (2 ^ (md - (lvl + 1)))).Disjoint
          (quadWrites ox' oy' (2 ^ (md - (lvl + 1)))) := by
      intro ox oy ox' oy' hcond p hp hq
      rw [mem_quadWrites] at hp hq
      omega
    refine List.Nodup.append (nodup_quadWrites _ _ _) ?_ ?_
    · refine List.Nodup.append (nodup_quadWrites _ _ _) ?_ ?_
      · exact List.Nodup.append (nodup_quadWrites _ _ _) (nodup_quadWrites _ _ _)
          (disj _ _ _ _ (by omega))
      · rw [List.disjoint_append_right]
        exact ⟨disj _ _ _ _ (by omega), disj _ _ _ _ (by omega)⟩
    · rw [List.disjoint_append_right, List.disjoint_append_right]
      exact ⟨disj _ _ _ _ (by omega), disj _ _ _ _ (by omega), disj _ _ _ _ (by omega)⟩

/-- C1: for every Board satisfying the leaf/children invariant, `flatten`
returns a square grid of side `n = 2 ^ (max_depth - level)`: every cell
inside the grid is populated, nothing outside it is, the cells written are
exactly the grid's cells with no cell written twice, and on a uniform leaf
of colour `c` every cell of the grid equals `c`. -/
theorem C1_flatten_grid (b : Block) (hb : b.valid) :
    (∀ x y, x < b.gridSide → y < b.gridSide → (flatten b x y).isSome) ∧
    (∀ x y, b.gridSide ≤ x ∨ b.gridSide ≤ y → flatten b x y = none) ∧
    (cellWrites b).Nodup ∧
    (∀ p : Nat × Nat, p ∈ cellWrites b ↔ p.1 < b.gridSide ∧ p.2 < b.gridSide) ∧
    (∀ (pos : Int × Int) (s lvl md : Nat) (c : Colour) (x y : Nat),
      x < 2 ^ (md - lvl) → y < 2 ^ (md - lvl) →
      flatten (.leaf pos s lvl md c) x y = some c) :=
  ⟨flatten_isSome b hb, flatten_outside b hb, cellWrites_nodup b hb, cellWrites_mem b hb,
   fun _ _ _ _ c x y hx hy => by
     simp only [flatten]
     rw [if_pos ⟨hx, hy⟩]⟩

/-- Witness for C1 at the concrete board `sampleLeaf`. -/
theorem C1_flatten_grid_witness :
    sampleLeaf.valid ∧
    ((∀ x y, x < sampleLeaf.gridSide → y < sampleLeaf.gridSide →
        (flatten sampleLeaf x y).isSome) ∧
      (∀ x y, sampleLeaf.gridSide ≤ x ∨ sampleLeaf.gridSide ≤ y →
        flatten sampleLeaf x y = none) ∧
      (cellWrites sampleLeaf).Nodup ∧
      (∀ p : Nat × Nat, p ∈ cellWrites sampleLeaf ↔
        p.1 < sampleLeaf.gridSide ∧ p.2 < sampleLeaf.gridSide) ∧
      (∀ (pos : Int × Int) (s lvl md : Nat) (c : Colour) (x y : Nat),
        x < 2 ^ (md - lvl) → y < 2 ^ (md - lvl) →
        flatten (.leaf pos s lvl md c) x y = some c)) :=
  ⟨by simp only [sampleLeaf, Block.valid]; decide,
   C1_flatten_grid sampleLeaf (by simp only [sampleLeaf, Block.valid]; decide)⟩

/-- The perimeter loop, accumulating four increments per index, sums its
per-index contributions. -/
theorem foldl_add4_range (f1 f2 f3 f4 : Nat → Nat) (n : Nat) :
    (List.range n).foldl (fun c i => c + f1 i + f2 i + f3 i + f4 i) 0 =
      ∑ i ∈ Finset.range n, (f1 i + f2 i + f3 i + f4 i) := by
  induction n with
  | zero => rfl
  | succ n ih =>
    rw [List.range_succ, List.foldl_append, Finset.sum_range_succ, ih]
    simp only [List.foldl_cons, List.foldl_nil]
    omega

/-- Summing an indicator for a fixed index against weights picks out that
index's weight. -/
theorem sum_indicator_eq {n a : Nat} (f : Nat → Nat) (ha : a < n) :
    ∑ x ∈ Finset.range n, (if x = a then 1 else 0) * f x = f a := by
  rw [Finset.sum_eq_single a]
  · rw [if_pos rfl, one_mul]
  · intro c _ hc
    rw [if_neg hc, zero_mul]
  · intro hnot
    exact absurd (Finset.mem_range.mpr ha) hnot

/-- C3: on every valid board, `PerimeterGoal.score` is the count produced by
the four boundary scans of the flattened grid (one increment per matching
test); equivalently each cell is counted once per boundary scan through it
(corners by two scans, other edge cells by one, interior cells by none); a
2 by 2 board entirely of the target colour scores 8; and a board whose
target cells are all interior scores 0. -/
theorem C3_perimeter_score (b : Block) (hb : b.valid) (t : Colour) :
    perimeterScore t b =
      (∑ i ∈ Finset.range b.gridSide,
        ((if flatten b 0 i = some t then 1 else 0) +
          (if flatten b i 0 = some t then 1 else 0) +
          (if flatten b i (b.gridSide - 1) = some t then 1 else 0) +
          (if flatten b (b.gridSide - 1) i = some t then 1 else 0))) ∧
    perimeterScore t b =
      (∑ x ∈ Finset.range b.gridSide, ∑ y ∈ Finset.range b.gridSide,
        ((if x = 0 then 1 else 0) + (if x = b.gridSide - 1 then 1 else 0) +
          (if y = 0 then 1 else 0) + (if y = b.gridSide - 1 then 1 else 0)) *
          (if flatten b x y = some t then 1 else 0)) ∧
    (b.maxDepth - b.level = 1 →
      (∀ x y, x < 2 → y < 2 → flatten b x y = some t) → perimeterScore t b = 8) ∧
    ((∀ x y, x < b.gridSide → y < b.gridSide → flatten b x y = some t →
        0 < x ∧ x < b.gridSide - 1 ∧ 0 < y ∧ y < b.gridSide - 1) →
      perimeterScore t b = 0) := by
  have hn1 : 0 < b.gridSide := pow_pos (by norm_num) _
  have ha : perimeterScore t b =
      ∑ i ∈ Finset.range b.gridSide,
        ((if flatten b 0 i = some t then 1 else 0) +
          (if flatten b i 0 = some t then 1 else 0) +
          (if flatten b i (b.gridSide - 1) = some t then 1 else 0) +
          (if flatten b (b.gridSide - 1) i = some t then 1 else 0)) :=
    foldl_add4_range _ _ _ _ _
  refine ⟨ha, ?_, ?_, ?_⟩
  · rw [ha]
    have expand : ∀ x y : Nat,
        ((if x = 0 then 1 else 0) + (if x = b.gridSide - 1 then 1 else 0) +
          (if y = 0 then 1 else 0) + (if y = b.gridSide - 1 then 1 else 0)) *
          (if flatten b x y = some t then 1 else 0) =
        (if x = 0 then 1 else 0) * (if flatten b x y = some t then 1 else 0) +
          (if x = b.gridSide - 1 then 1 else 0) * (if flatten b x y = some t then 1 else 0) +
          (if y = 0 then 1 else 0) * (if flatten b x y = some t then 1 else 0) +
          (if y = b.gridSide - 1 then 1 else 0) * (if flatten b x y = some t then 1 else 0) := by
      intro x y
      ring
    simp only [expand, Finset.sum_add_distrib]
    have s1 : ∑ x ∈ Finset.range b.gridSide, ∑ y ∈ Finset.range b.gridSide,
        (if x = 0 then 1 else 0) * (if flatten b x y = some t then 1 else 0) =
        ∑ i ∈ Finset.range b.gridSide, (if flatten b 0 i = some t then 1 else 0) := by
      have : ∀ x, ∑ y ∈ Finset.range b.gridSide,
          (if x = 0 then 1 else 0) * (if flatten b x y = some t then 1 else 0) =
          (if x = 0 then 1 else 0) *
            ∑ y ∈ Finset.range b.gridSide, (if flatten b x y = some t then 1 else 0) :=
        fun x => (Finset.mul_sum _ _ _).symm
      simp only [this]
      exact sum_indicator_eq _ hn1
    have s2 : ∑ x ∈ Finset.range b.gridSide, ∑ y ∈ Finset.range b.gridSide,
        (if x = b.gridSide - 1 then 1 else 0) * (if flatten b x y = some t then 1 else 0) =
        ∑ i ∈ Finset.range b.gridSide,
          (if flatten b (b.gridSide - 1) i = some t then 1 else 0) := by
      have : ∀ x, ∑ y ∈ Finset.range b.gridSide,
          (if x = b.gridSide - 1 then 1 else 0) * (if flatten b x y = some t then 1 else 0) =
          (if x = b.gridSide - 1 then 1 else 0) *
            ∑ y ∈ Finset.range b.gridSide, (if flatten b x y = some t then 1 else 0) :=
        fun x => (Finset.mul_sum _ _ _).symm
      simp only [this]
      exact sum_indicator_eq _ (by omega)
    have s3 : ∑ x ∈ Finset.range b.gridSide, ∑ y ∈ Finset.range b.gridSide,
        (if y = 0 then 1 else 0) * (if flatten b x y = some t then 1 else 0) =
        ∑ i ∈ Finset.range b.gridSide, (if flatten b i 0 = some t then 1 else 0) := by
      refine Finset.sum_congr rfl ?_
      intro x _
      exact sum_indicator_eq _ hn1
    have s4 : ∑ x ∈ Finset.range b.gridSide, ∑ y ∈ Finset.range b.gridSide,
        (if y = b.gridSide - 1 then 1 else 0) * (if flatten b x y = some t then 1 else 0) =
        ∑ i ∈ Finset.range b.gridSide,
          (if flatten b i (b.gridSide - 1) = some t then 1 else 0) := by
      refine Finset.sum_congr rfl ?_
      intro x _
      exact sum_indicator_eq _ (by omega)
    rw [s1, s2, s3, s4]
    omega
  · intro hd hall
    have hn : b.gridSide = 2 := by
      rw [Block.gridSide, hd]
      norm_num
    have e00 : flatten b 0 0 = some t := hall 0 0 (by omega) (by omega)
    have e01 : flatten b 0 1 = some t := hall 0 1 (by omega) (by omega)
    have e10 : flatten b 1 0 = some t := hall 1 0 (by omega) (by omega)
    have e11 : flatten b 1 1 = some t := hall 1 1 (by omega) (by omega)
    simp only [perimeterScore, hn]
    norm_num [List.range_succ, e00, e01, e10, e11]
  · intro hint
    rw [ha]
    refine Finset.sum_eq_zero ?_
    intro i hi
    rw [Finset.mem_range] at hi
    have hA : ¬ flatten b 0 i = some t := by
      intro hcon
      have := hint 0 i hn1 hi hcon
      omega
    have hB : ¬ flatten b i 0 = some t := by
      intro hcon
      have := hint i 0 hi hn1 hcon
      omega
    have hC : ¬ flatten b i (b.gridSide - 1) = some t := by
      intro hcon
      have := hint i (b.gridSide - 1) hi (by omega) hcon
      omega
    have hD : ¬ flatten b (b.gridSide - 1) i = some t := by
      intro hcon
      have := hint (b.gridSide - 1) i (by omega) hi hcon
      omega
    rw [if_neg hA, if_neg hB, if_neg hC, if_neg hD]
    rfl

/-- Witness for C3 at the concrete 2 by 2 all-Real-Red board. -/
theorem C3_perimeter_score_witness :
    sampleQuad.valid ∧
    (perimeterScore REAL_RED sampleQuad =
      (∑ i ∈ Finset.range sampleQuad.gridSide,
        ((if flatten sampleQuad 0 i = some REAL_RED then 1 else 0) +
          (if flatten sampleQuad i 0 = some REAL_RED then 1 else 0) +
          (if flatten sampleQuad i (sampleQuad.gridSide - 1) = some REAL_RED then 1 else 0) +
          (if flatten sampleQuad (sampleQuad.gridSide - 1) i = some REAL_RED then 1
            else 0))) ∧
    perimeterScore REAL_RED sampleQuad =
      (∑ x ∈ Finset.range sampleQuad.gridSide, ∑ y ∈ Finset.range sampleQuad.gridSide,
        ((if x = 0 then 1 else 0) + (if x = sampleQuad.gridSide - 1 then 1 else 0) +
          (if y = 0 then 1 else 0) + (if y = sampleQuad.gridSide - 1 then 1 else 0)) *
          (if flatten sampleQuad x y = some REAL_RED then 1 else 0)) ∧
    (sampleQuad.maxDepth - sampleQuad.level = 1 →
      (∀ x y, x < 2 → y < 2 → flatten sampleQuad x y = some REAL_RED) →
      perimeterScore REAL_RED sampleQuad = 8) ∧
    ((∀ x y, x < sampleQuad.gridSide → y < sampleQuad.gridSide →
        flatten sampleQuad x y = some REAL_RED →
        0 < x ∧ x < sampleQuad.gridSide - 1 ∧ 0 < y ∧ y < sampleQuad.gridSide - 1) →
      perimeterScore REAL_RED sampleQuad = 0)) :=
  ⟨by
    simp only [sampleQuad, Block.valid, Block.position, Block.size, Block.level,
      Block.maxDepth]
    decide,
   C3_perimeter_score sampleQuad
    (by
      simp only [sampleQuad, Block.valid, Block.position, Block.size, Block.level,
        Block.maxDepth]
      decide)
    REAL_RED⟩

/-- Core of the point-location lookup correctness, by induction on the
board: on a valid board with `level ≤ target ≤ max_depth`, the lookup
returns `none` exactly when the location is outside the board, and on a
contained location it returns a node containing the location that sits at
the target level or is a leaf strictly above it. -/
theorem getBlock_main : ∀ b : Block, b.valid → ∀ (loc : Int × Int) (tl : Nat),
    b.level ≤ tl → tl ≤ b.maxDepth →
    ((getBlock b loc (tl : Int) = none ↔ ¬ containsPt b loc) ∧
     (containsPt b loc → ∃ r, getBlock b loc (tl : Int) = some r ∧ containsPt r loc ∧
        (r.level = tl ∨ (r.colour ≠ none ∧ r.level < tl)))) := by
  intro b
  induction b with
  | leaf p s lvl md c =>
    intro hb loc tl hlo hhi
    simp only [Block.level, Block.maxDepth] at hlo hhi
    have hcond : containsPt (.leaf p s lvl md c) loc ↔
        (p.1 ≤ loc.1 ∧ loc.1 < p.1 + (s : Int) ∧
          p.2 ≤ loc.2 ∧ loc.2 < p.2 + (s : Int)) := by
      simp only [containsPt, Block.position, Block.size]
    by_cases hc : p.1 ≤ loc.1 ∧ loc.1 < p.1 + (s : Int) ∧
        p.2 ≤ loc.2 ∧ loc.2 < p.2 + (s : Int)
    · constructor
      · simp only [getBlock, if_pos hc, hcond]
        simp [hc]
      · intro _
        refine ⟨.leaf p s lvl md c, ?_, hcond.mpr hc, ?_⟩
        · simp only [getBlock, if_pos hc]
        · rcases Nat.lt_or_ge lvl tl with h | h
          · exact Or.inr ⟨by simp [Block.colour], by simpa [Block.level] using h⟩
          · left
            simp only [Block.level]
            omega
    · constructor
      · simp only [getBlock, if_neg hc, hcond]
        simp [hc]
      · intro hcont
        exact absurd (hcond.mp hcont) hc
  | node p s lvl md c0 c1 c2 c3 ih0 ih1 ih2 ih3 =>
    intro hb loc tl hlo hhi
    obtain ⟨px, py⟩ := p
    simp only [Block.level, Block.maxDepth] at hlo hhi
    simp only [Block.valid] at hb
    obtain ⟨hlt, hs, hdvd, hp0, hp1, hp2, hp3, hs0, hs1, hs2', hs3,
      hl0, hl1, hl2, hl3, hm0, hm1, hm2, hm3, hv0, hv1, hv2, hv3⟩ := hb
    have h2s : (2 : Nat) ∣ s := dvd_trans (dvd_pow_self 2 (by omega)) hdvd
    have hs2 : s / 2 + s / 2 = s := by omega
    have hcond : containsPt (.node (px, py) s lvl md c0 c1 c2 c3) loc ↔
        (px ≤ loc.1 ∧ loc.1 < px + (s : Int) ∧
          py ≤ loc.2 ∧ loc.2 < py + (s : Int)) := by
      simp only [containsPt, Block.position, Block.size]
    by_cases hcp : px ≤ loc.1 ∧ loc.1 < px + (s : Int) ∧
        py ≤ loc.2 ∧ loc.2 < py + (s : Int)
    · by_cases hlvl : (tl : Int) = (lvl : Int)
      · constructor
        · simp only [getBlock, if_pos hcp, if_pos hlvl, hcond]
          simp [hcp]
        · intro _
          refine ⟨.node (px, py) s lvl md c0 c1 c2 c3, ?_, hcond.mpr hcp, ?_⟩
          · simp only [getBlock, if_pos hcp, if_pos hlvl]
          · left
            simp only [Block.level]
            omega
      · have htl : lvl < tl := by
          rcases Nat.lt_or_ge lvl tl with h | h
          · exact h
          · exact absurd (by omega : tl = lvl) (fun hh => hlvl (by exact_mod_cast congrArg Nat.cast hh))
        obtain ⟨iff0, ex0⟩ := ih0 hv0 loc tl (by omega) (by rw [hm0]; omega)
        obtain ⟨iff1, ex1⟩ := ih1 hv1 loc tl (by omega) (by rw [hm1]; omega)
        obtain ⟨iff2, ex2⟩ := ih2 hv2 loc tl (by omega) (by rw [hm2]; omega)
        obtain ⟨iff3, ex3⟩ := ih3 hv3 loc tl (by omega) (by rw [hm3]; omega)
        have hmain : ∃ r, getBlock (.node (px, py) s lvl md c0 c1 c2 c3) loc (tl : Int) =
            some r ∧ containsPt r loc ∧ (r.level = tl ∨ (r.colour ≠ none ∧ r.level < tl)) := by
          by_cases hx : loc.1 < px + ((s / 2 : Nat) : Int) <;>
            by_cases hy : loc.2 < py + ((s / 2 : Nat) : Int)
          · -- top-left quadrant: c1
            have hin : containsPt c1 loc := by
              simp only [containsPt, hp1, hs1]
              omega
            have hnot0 : ¬ containsPt c0 loc := by
              simp only [containsPt, hp0, hs0]
              omega
            obtain ⟨r, hr, hcr, hlr⟩ := ex1 hin
            refine ⟨r, ?_, hcr, hlr⟩
            simp only [getBlock, if_pos hcp, if_neg hlvl, iff0.mpr hnot0, hr]
          · -- bottom-left quadrant: c2
            have hin : containsPt c2 loc := by
              simp only [containsPt, hp2, hs2']
              omega
            have hnot0 : ¬ containsPt c0 loc := by
              simp only [containsPt, hp0, hs0]
              omega
            have hnot1 : ¬ containsPt c1 loc := by
              simp only [containsPt, hp1, hs1]
              omega
            obtain ⟨r, hr, hcr, hlr⟩ := ex2 hin
            refine ⟨r, ?_, hcr, hlr⟩
            simp only [getBlock, if_pos hcp, if_neg hlvl, iff0.mpr hnot0,
              iff1.mpr hnot1, hr]
          · -- top-right quadrant: c0
            have hin : containsPt c0 loc := by
              simp only [containsPt, hp0, hs0]
              omega
            obtain ⟨r, hr, hcr, hlr⟩ := ex0 hin
            refine ⟨r, ?_, hcr, hlr⟩
            simp only [getBlock, if_pos hcp, if_neg hlvl, hr]
          · -- bottom-right quadrant: c3
            have hnot0 : ¬ containsPt c0 loc := by
              simp only [containsPt, hp0, hs0]
              omega
            have hnot1 : ¬ containsPt c1 loc := by
              simp only [containsPt, hp1, hs1]
              omega
            have hnot2 : ¬ containsPt c2 loc := by
              simp only [containsPt, hp2, hs2']
              omega
            have hin : containsPt c3 loc := by
              simp only [containsPt, hp3, hs3]
              omega
            obtain ⟨r, hr, hcr, hlr⟩ := ex3 hin
            refine ⟨r, ?_, hcr, hlr⟩
            simp only [getBlock, if_pos hcp, if_neg hlvl, iff0.mpr hnot0,
              iff1.mpr hnot1, iff2.mpr hnot2, hr]
        obtain ⟨r, hr, hcr, hlr⟩ := hmain
        constructor
        · rw [hr]
          simp only [hcond]
          simp [hcp]
        · intro _
          exact ⟨r, hr, hcr, hlr⟩
    · constructor
      · simp only [getBlock, if_neg hcp, hcond]
        simp [hcp]
      · intro hcont
        exact absurd (hcond.mp hcont) hcp

/-- A valid board has positive side length. -/
theorem valid_size_pos (b : Block) (hb : b.valid) : 0 < b.size := by
  cases b with
  | leaf p s lvl md c =>
    simp only [Block.valid] at hb
    simpa [Block.size] using hb.2.1
  | node p s lvl md c0 c1 c2 c3 =>
    obtain ⟨px, py⟩ := p
    simp only [Block.valid] at hb
    simpa [Block.size] using hb.2.1

/-- C5: on a valid board with `level ≤ target_level ≤ max_depth`, the
point-location lookup returns absent exactly when the coordinate falls
outside the board under closed-low/open-high containment; on a contained
coordinate it returns a node containing the coordinate that is at the
target level or is a leaf strictly above it (deepest-available policy).
In particular the top-left corner itself resolves to a node and the
bottom-right corner resolves to absent. -/
theorem C5_point_location (b : Block) (hb : b.valid) (loc : Int × Int) (tl : Nat)
    (hlo : b.level ≤ tl) (hhi : tl ≤ b.maxDepth) :
    (getBlock b loc (tl : Int) = none ↔ ¬ containsPt b loc) ∧
    (containsPt b loc → ∃ r, getBlock b loc (tl : Int) = some r ∧ containsPt r loc ∧
      (r.level = tl ∨ (r.colour ≠ none ∧ r.level < tl))) ∧
    getBlock b (b.position.1, b.position.2) (tl : Int) ≠ none ∧
    getBlock b (b.position.1 + (b.size : Int), b.position.2 + (b.size : Int))
      (tl : Int) = none := by
  obtain ⟨hiff, hex⟩ := getBlock_main b hb loc tl hlo hhi
  obtain ⟨hiffTL, _⟩ := getBlock_main b hb (b.position.1, b.position.2) tl hlo hhi
  obtain ⟨hiffBR, _⟩ := getBlock_main b hb
    (b.position.1 + (b.size : Int), b.position.2 + (b.size : Int)) tl hlo hhi
  have hsz : 0 < b.size := valid_size_pos b hb
  refine ⟨hiff, hex, ?_, ?_⟩
  · intro hnone
    refine hiffTL.mp hnone ?_
    simp only [containsPt]
    omega
  · refine hiffBR.mpr ?_
    simp only [containsPt]
    omega

/-- Witness for C5 at the concrete 2 by 2 board, coordinate (0, 0), target
level 1. -/
theorem C5_point_location_witness :
    sampleQuad.valid ∧ sampleQuad.level ≤ 1 ∧ 1 ≤ sampleQuad.maxDepth ∧
    ((getBlock sampleQuad (0, 0) ((1 : Nat) : Int) = none ↔
        ¬ containsPt sampleQuad (0, 0)) ∧
      (containsPt sampleQuad (0, 0) → ∃ r, getBlock sampleQuad (0, 0) ((1 : Nat) : Int) =
        some r ∧ containsPt r (0, 0) ∧
        (r.level = 1 ∨ (r.colour ≠ none ∧ r.level < 1))) ∧
      getBlock sampleQuad (sampleQuad.position.1, sampleQuad.position.2)
        ((1 : Nat) : Int) ≠ none ∧
      getBlock sampleQuad (sampleQuad.position.1 + (sampleQuad.size : Int),
        sampleQuad.position.2 + (sampleQuad.size : Int)) ((1 : Nat) : Int) = none) :=
  ⟨by
    simp only [sampleQuad, Block.valid, Block.position, Block.size, Block.level,
      Block.maxDepth]
    decide,
   by decide, by decide,
   C5_point_location sampleQuad
    (by
      simp only [sampleQuad, Block.valid, Block.position, Block.size, Block.level,
        Block.maxDepth]
      decide)
    (0, 0) 1 (by decide) (by decide)⟩

/-- Characterization of the `SmartPlayer` selection fold: from any starting
best `(v, m)`, if no trial's net exceeds `v` the state is unchanged;
otherwise the fold lands exactly on the first trial attaining the maximum
net, which exceeds `v`. -/
theorem smartSelect_fold (total : List (GameAction × Option Block × Nat)) :
    ∀ (v : Int) (m : Option (GameAction × Option Block)),
      ((∀ tr ∈ total, netGain tr ≤ v) → total.foldl smartStep (v, m) = (v, m)) ∧
      ((∃ tr ∈ total, v < netGain tr) →
        ∃ i, ∃ h : i < total.length,
          total.foldl smartStep (v, m) =
            (netGain (total.get ⟨i, h⟩),
              some ((total.get ⟨i, h⟩).1, (total.get ⟨i, h⟩).2.1)) ∧
          v < netGain (total.get ⟨i, h⟩) ∧
          (∀ j, ∀ hj : j < total.length,
            netGain (total.get ⟨j, hj⟩) ≤ netGain (total.get ⟨i, h⟩)) ∧
          (∀ j, ∀ hj : j < total.length, j < i →
            netGain (total.get ⟨j, hj⟩) < netGain (total.get ⟨i, h⟩))) := by
  induction total with
  | nil =>
    intro v m
    constructor
    · intro _
      rfl
    · rintro ⟨tr, htr, _⟩
      exact absurd htr (List.not_mem_nil tr)
  | cons a l ih =>
    intro v m
    have hstep : ∀ acc : Int × Option (GameAction × Option Block),
        (a :: l).foldl smartStep acc = l.foldl smartStep (smartStep acc a) := fun _ => rfl
    by_cases ha : netGain a > v
    · have hsa : smartStep (v, m) a = (netGain a, some (a.1, a.2.1)) := by
        simp only [smartStep]
        rw [if_pos ha]
      constructor
      · intro hall
        exact absurd (hall a (List.mem_cons_self a l)) (not_le.mpr ha)
      · intro _
        by_cases hl : ∃ tr ∈ l, netGain a < netGain tr
        · obtain ⟨i, h, hres, hgt, hmax, hfirst⟩ := (ih (netGain a) (some (a.1, a.2.1))).2 hl
          refine ⟨i + 1, Nat.succ_lt_succ h, ?_, lt_trans ha hgt, ?_, ?_⟩
          · rw [hstep, hsa, hres]
            rfl
          · intro j hj
            cases j with
            | zero => exact le_of_lt hgt
            | succ j => exact hmax j (Nat.lt_of_succ_lt_succ hj)
          · intro j hj hlt
            cases j with
            | zero => exact hgt
            | succ j => exact hfirst j (Nat.lt_of_succ_lt_succ hj) (Nat.lt_of_succ_lt_succ hlt)
        · push_neg at hl
          have hrest := (ih (netGain a) (some (a.1, a.2.1))).1 hl
          refine ⟨0, Nat.succ_pos _, ?_, ha, ?_, ?_⟩
          · rw [hstep, hsa, hrest]
            rfl
          · intro j hj
            cases j with
            | zero => exact le_refl _
            | succ j => exact hl _ (List.get_mem l j (Nat.lt_of_succ_lt_succ hj))
          · intro j hj hlt
            exact absurd hlt (Nat.not_lt_zero j)
    · have hsa : smartStep (v, m) a = (v, m) := by
        simp only [smartStep]
        rw [if_neg ha]
      constructor
      · intro hall
        rw [hstep, hsa]
        exact (ih v m).1 (fun tr htr => hall tr (List.mem_cons_of_mem a htr))
      · rintro ⟨tr, htr, hgt⟩
        have hexl : ∃ tr ∈ l, v < netGain tr := by
          rcases List.mem_cons.mp htr with rfl | hmem
          · exact absurd hgt (by omega)
          · exact ⟨tr, hmem, hgt⟩
        obtain ⟨i, h, hres, hgt', hmax, hfirst⟩ := (ih v m).2 hexl
        refine ⟨i + 1, Nat.succ_lt_succ h, ?_, hgt', ?_, ?_⟩
        · rw [hstep, hsa, hres]
          rfl
        · intro j hj
          cases j with
          | zero => exact le_trans (not_lt.mp ha) (le_of_lt hgt')
          | succ j => exact hmax j (Nat.lt_of_succ_lt_succ hj)
        · intro j hj hlt
          cases j with
          | zero => exact lt_of_le_of_lt (not_lt.mp ha) hgt'
          | succ j => exact hfirst j (Nat.lt_of_succ_lt_succ hj) (Nat.lt_of_succ_lt_succ hlt)

/-- C4: the triggered SmartPlayer selects, among the recorded trials, the
first trial whose net (resulting score minus the action's penalty) attains
the strict maximum, provided that maximum strictly exceeds the baseline
score of the unmodified real board (later trials with equal or lower net
never replace it); if no trial's net strictly exceeds the baseline it
returns the pass action targeting the real board, and at difficulty 0 (no
recorded trials) it always returns the pass action. -/
theorem C4_smart_selection (board : Block) (baseline : Nat)
    (total : List (GameAction × Option Block × Nat)) (score : Block → Nat)
    (draws : List Draw) :
    ((∀ tr ∈ total, netGain tr ≤ (baseline : Int)) →
      smartChoose board baseline total = some (PASS, some board)) ∧
    ((∃ tr ∈ total, (baseline : Int) < netGain tr) →
      ∃ i, ∃ h : i < total.length,
        smartChoose board baseline total =
          some ((total.get ⟨i, h⟩).1, (total.get ⟨i, h⟩).2.1) ∧
        (baseline : Int) < netGain (total.get ⟨i, h⟩) ∧
        (∀ j, ∀ hj : j < total.length,
          netGain (total.get ⟨j, hj⟩) ≤ netGain (total.get ⟨i, h⟩)) ∧
        (∀ j, ∀ hj : j < total.length, j < i →
          netGain (total.get ⟨j, hj⟩) < netGain (total.get ⟨i, h⟩))) ∧
    smartGenerateMove board true 0 score draws = (some (PASS, some board), board) := by
  refine ⟨?_, ?_, ?_⟩
  · intro hall
    have h1 := (smartSelect_fold total (baseline : Int) none).1 hall
    simp only [smartChoose, smartSelect]
    rw [h1]
    simp
  · intro hex
    obtain ⟨i, h, hres, hgt, hmax, hfirst⟩ :=
      (smartSelect_fold total (baseline : Int) none).2 hex
    refine ⟨i, h, ?_, hgt, hmax, hfirst⟩
    simp only [smartChoose, smartSelect]
    rw [hres]
    rw [if_neg (by simpa using not_le.mpr hgt)]
  · simp [smartGenerateMove, smartChoose, smartSelect, smartTrials]

/-- C10: after every call to `HumanPlayer.generate_move` — whether it
returns a move or nothing — the pending desired action is cleared, so a
pending intent never survives a failed query. -/
theorem C10_human_reset (p : HumanPlayer) (board : Block) (mousePos : Int × Int) :
    ((humanGenerateMove p board mousePos).2).desiredAction = none := by
  rcases hgb : getBlock board mousePos p.level with _ | blk <;>
    rcases hda : p.desiredAction with _ | act <;>
      simp [humanGenerateMove, hgb, hda]

/-- C6: neither computer policy mutates the real board: every action
application happens on the per-draw disposable copy (`create_copy` yields
an independent deep copy, value-identical here), and both
`generate_move` procedures leave the real board exactly as given. -/
theorem C6_no_board_mutation (board : Block) (proceed : Bool) (draws : List Draw)
    (difficulty : Nat) (score : Block → Nat) :
    (randomGenerateMove board proceed draws).2 = board ∧
    (smartGenerateMove board proceed difficulty score draws).2 = board := by
  constructor
  · induction draws with
    | nil => cases proceed <;> rfl
    | cons d rest ih =>
      cases proceed
      · rfl
      · rcases hd : d.applyOutcome with _ | b2
        · simp only [randomGenerateMove, hd]
          simpa using ih
        · simp [randomGenerateMove, hd]
  · cases proceed <;> simp [smartGenerateMove]

/-- C7 (refuting the sampling claim): the sampling step draws
`x = randint(position.x, board.size - 1)`, whose upper bound ignores the
board's position.  On the valid board `leaf (-4, 0), size 4` the draw can
produce `x = 2`, which lies outside the board's extent `[-4, 0)`, and the
lookup at `(2, 0)` then returns absent rather than a node; on the valid
board `leaf (4, 0), size 4` the draw's range is empty — Python's `randint`
raises `ValueError` — although the extent `[4, 8)` is nonempty (it contains
the board's own top-left corner). -/
theorem C7_sampling_counterexample :
    (Block.leaf (-4, 0) 4 0 0 REAL_RED).valid ∧
    sampleXRange (Block.leaf (-4, 0) 4 0 0 REAL_RED) = some (Finset.Icc (-4) 3) ∧
    (2 : Int) ∈ Finset.Icc (-4 : Int) 3 ∧
    ¬ containsPt (Block.leaf (-4, 0) 4 0 0 REAL_RED) (2, 0) ∧
    getBlock (Block.leaf (-4, 0) 4 0 0 REAL_RED) (2, 0) 0 = none ∧
    (Block.leaf (4, 0) 4 1 1 REAL_RED).valid ∧
    sampleXRange (Block.leaf (4, 0) 4 1 1 REAL_RED) = none ∧
    containsPt (Block.leaf (4, 0) 4 1 1 REAL_RED) (4, 0) := by
  refine ⟨?_, ?_, ?_, ?_, ?_, ?_, ?_, ?_⟩
  · simp only [Block.valid]
    decide
  · rfl
  · decide
  · simp only [containsPt, Block.position, Block.size]
    decide
  · decide
  · simp only [Block.valid]
    decide
  · rfl
  · simp only [containsPt, Block.position, Block.size]
    decide

/-- Reading back the cell just written in the visitation map. -/
theorem updV_same (v : Visited) (x y : Nat) (m : Int) : updV v x y m x y = m := by
  simp [updV]

/-- Reading any other cell of the visitation map after a write. -/
theorem updV_other (v : Visited) (x y a b : Nat) (m : Int) (h : ¬(a = x ∧ b = y)) :
    updV v x y m a b = v a b := by
  simp only [updV, if_neg h]

/-- At most `n * n` cells are unvisited. -/
theorem unvisCount_le (n : Nat) (v : Visited) : unvisCount n v ≤ n * n := by
  calc unvisCount n v ≤ (Finset.range n ×ˢ Finset.range n).card :=
        Finset.card_filter_le _ _
    _ = n * n := by rw [Finset.card_product, Finset.card_range]

/-- Marking an unvisited in-bounds cell strictly decreases the unvisited
count. -/
theorem unvisCount_updV {n x y : Nat} (v : Visited) (m : Int)
    (hx : x < n) (hy : y < n) (hv : v x y = -1) (hm : m ≠ -1) :
    unvisCount n (updV v x y m) < unvisCount n v := by
  have hmem : (x, y) ∈ (Finset.range n ×ˢ Finset.range n).filter
      (fun q => v q.1 q.2 = -1) := by
    simp [Finset.mem_filter, Finset.mem_product, Finset.mem_range, hx, hy, hv]
  have hset : (Finset.range n ×ˢ Finset.range n).filter
      (fun q => updV v x y m q.1 q.2 = -1) =
      ((Finset.range n ×ˢ Finset.range n).filter (fun q => v q.1 q.2 = -1)).erase (x, y) := by
    ext q
    obtain ⟨a, b⟩ := q
    simp only [Finset.mem_filter, Finset.mem_erase, Finset.mem_product,
      Finset.mem_range, updV, Prod.mk.injEq]
    by_cases hab : a = x ∧ b = y
    · obtain ⟨rfl, rfl⟩ := hab
      simp [hm, hv]
    · rw [if_neg hab]
      constructor
      · rintro ⟨hr, hv'⟩
        refine ⟨?_, hr, hv'⟩
        intro hc
        exact hab ⟨congrArg Prod.fst hc, congrArg Prod.snd hc⟩
      · rintro ⟨_, hr, hv'⟩
        exact ⟨hr, hv'⟩
  rw [unvisCount, unvisCount, hset, Finset.card_erase_of_mem hmem]
  exact Nat.sub_lt (Finset.card_pos.mpr ⟨(x, y), hmem⟩) one_pos

/-- If marks only persist from `v` to `vv`, the unvisited count does not
increase. -/
theorem unvisCount_mono {n : Nat} {v vv : Visited}
    (h : ∀ x y, v x y ≠ -1 → vv x y = v x y) :
    unvisCount n vv ≤ unvisCount n v := by
  apply Finset.card_le_card
  intro q hq
  simp only [Finset.mem_filter] at hq ⊢
  refine ⟨hq.1, ?_⟩
  by_contra hne
  have := h q.1 q.2 hne
  rw [this] at hq
  exact hne hq.2

/-- The running maximum of a fold: the seed and every element bound it from
below, and it is either the seed or one of the elements. -/
theorem foldl_max_spec (l : List Nat) : ∀ a : Nat,
    a ≤ l.foldl max a ∧ (∀ x ∈ l, x ≤ l.foldl max a) ∧
    (l.foldl max a = a ∨ l.foldl max a ∈ l) := by
  induction l with
  | nil =>
    intro a
    exact ⟨le_refl _, by simp, Or.inl rfl⟩
  | cons x l ih =>
    intro a
    obtain ⟨h1, h2, h3⟩ := ih (max a x)
    refine ⟨le_trans (le_max_left a x) h1, ?_, ?_⟩
    · intro z hz
      rcases List.mem_cons.mp hz with rfl | hz
      · exact le_trans (le_max_right a z) h1
      · exact h2 z hz
    · rcases h3 with h3 | h3
      · rcases max_choice a x with hm | hm
        · exact Or.inl (by rw [List.foldl_cons, h3, hm])
        · refine Or.inr ?_
          have hfold : (x :: l).foldl max a = x := by
            rw [List.foldl_cons, h3, hm]
          rw [hfold]
          exact List.mem_cons_self x l
      · exact Or.inr (List.mem_cons_of_mem x h3)

/-- 4-adjacency of target cells is symmetric. -/
theorem adjCell_symm {t : Colour} {g : Grid} {n : Nat} :
    Symmetric (adjCell t g n) := by
  rintro p q ⟨hp, hq, harith⟩
  refine ⟨hq, hp, ?_⟩
  omega

/-- Reachability through target cells is symmetric. -/
theorem blobReach_symm {t : Colour} {g : Grid} {n : Nat} {p q : Nat × Nat}
    (h : Relation.ReflTransGen (adjCell t g n) p q) :
    Relation.ReflTransGen (adjCell t g n) q p :=
  (Relation.ReflTransGen.symmetric adjCell_symm) h

/-- Two mutually reachable cells have the same blob. -/
theorem blobComp_eq_of_reach {t : Colour} {g : Grid} {n : Nat} {p q : Nat × Nat}
    (h : Relation.ReflTransGen (adjCell t g n) p q) :
    blobComp t g n q = blobComp t g n p := by
  ext r
  simp only [blobComp, Set.mem_setOf_eq]
  constructor
  · intro hr
    exact Relation.ReflTransGen.trans h hr
  · intro hr
    exact Relation.ReflTransGen.trans (blobReach_symm h) hr

/-- Membership in a blob of a cell reachable from its base. -/
theorem blobComp_mem_of_reach {t : Colour} {g : Grid} {n : Nat} {p q : Nat × Nat}
    (h : Relation.ReflTransGen (adjCell t g n) p q) : q ∈ blobComp t g n p := h

/-- A set of cells closed under single adjacency steps is closed under
reachability. -/
theorem reach_closed {t : Colour} {g : Grid} {n : Nat}
    (P : Nat × Nat → Prop)
    (hclosed : ∀ a b, P a → adjCell t g n a b → P b)
    {p q : Nat × Nat} (h : Relation.ReflTransGen (adjCell t g n) p q) (hp : P p) :
    P q := by
  induction h with
  | refl => exact hp
  | tail _ hstep ih => exact hclosed _ _ ih hstep

/-- No cell is newly marked between a map and itself. -/
theorem newOnes_self (n : Nat) (v : Visited) : newOnes n v v = ∅ := by
  ext q
  simp only [newOnes, Finset.mem_filter, Finset.not_mem_empty, iff_false, not_and]
  intro _ h1 h2
  omega

/-- Writing a `0` marks no new `1`. -/
theorem newOnes_upd0 (n : Nat) (v : Visited) (x y : Nat) :
    newOnes n v (updV v x y 0) = ∅ := by
  ext q
  simp only [newOnes, Finset.mem_filter, Finset.not_mem_empty, iff_false, not_and]
  intro _ h1 h2
  by_cases hq : q.1 = x ∧ q.2 = y
  · rw [updV, if_pos hq] at h2
    omega
  · rw [updV, if_neg hq] at h2
    omega

/-- Mark persistence composes across two calls. -/
theorem persist_trans {a b c : Visited}
    (h1 : ∀ x y, a x y ≠ -1 → b x y = a x y)
    (h2 : ∀ x y, b x y ≠ -1 → c x y = b x y) :
    ∀ x y, a x y ≠ -1 → c x y = a x y := by
  intro x y h
  have hb : b x y = a x y := h1 x y h
  rw [h2 x y (by rw [hb]; exact h), hb]

/-- A cell unvisited after a call was already unvisited before it. -/
theorem persist_back {a b : Visited}
    (h : ∀ x y, a x y ≠ -1 → b x y = a x y) :
    ∀ x y, b x y = -1 → a x y = -1 := by
  intro x y hb
  by_contra hne
  have := h x y hne
  rw [this] at hb
  exact hne hb

/-- A 1-mark survives a call. -/
theorem persist_one {a b : Visited} {x y : Nat}
    (h : ∀ x y, a x y ≠ -1 → b x y = a x y) (h1 : a x y = 1) : b x y = 1 := by
  rw [h x y (by rw [h1]; decide), h1]

/-- `UbsOut` for the out-of-bounds case: nothing changes. -/
theorem ubsOut_oob {t : Colour} {g : Grid} {n : Nat} {pos : Int × Int} {v : Visited}
    (hb : pos.1 < 0 ∨ (n : Int) ≤ pos.1 ∨ pos.2 < 0 ∨ (n : Int) ≤ pos.2)
    (hout : ∀ x y, ¬(x < n ∧ y < n) → v x y = -1) :
    UbsOut t g n pos v 0 v := by
  refine ⟨fun _ _ _ => rfl, hout, ?_, ?_, ?_, ?_, ?_, ?_, ?_, fun x y hv => Or.inl hv⟩
  · intro x y h1 h2
    omega
  · intro x y h1 h2
    omega
  · rw [newOnes_self]
    rfl
  · intro x y h1 h2
    omega
  · rintro ⟨x, y, h1, h2⟩
    omega
  · intro x y h1 h2
    omega
  · intro h1 h2 h3 h4
    omega

/-- `UbsOut` for an already-visited call position: nothing changes. -/
theorem ubsOut_visited {t : Colour} {g : Grid} {n : Nat} {pos : Int × Int} {v : Visited}
    (hvis : v pos.1.toNat pos.2.toNat ≠ -1)
    (hout : ∀ x y, ¬(x < n ∧ y < n) → v x y = -1) :
    UbsOut t g n pos v 0 v := by
  refine ⟨fun _ _ _ => rfl, hout, ?_, ?_, ?_, ?_, ?_, ?_, ?_, fun x y hv => Or.inl hv⟩
  · intro x y h1 h2
    omega
  · intro x y h1 h2
    omega
  · rw [newOnes_self]
    rfl
  · intro x y h1 h2
    omega
  · rintro ⟨x, y, h1, h2⟩
    omega
  · intro x y h1 h2
    omega
  · intro _ _ _ _
    exact hvis

/-- `UbsOut` for an unvisited non-target call position: the cell is marked 0. -/
theorem ubsOut_nontarget {t : Colour} {g : Grid} {n : Nat} {pos : Int × Int} {v : Visited}
    (hb1 : 0 ≤ pos.1) (hb2 : pos.1 < (n : Int)) (hb3 : 0 ≤ pos.2) (hb4 : pos.2 < (n : Int))
    (hvis : v pos.1.toNat pos.2.toNat = -1)
    (hg : g pos.1.toNat pos.2.toNat ≠ some t)
    (hout : ∀ x y, ¬(x < n ∧ y < n) → v x y = -1) :
    UbsOut t g n pos v 0 (updV v pos.1.toNat pos.2.toNat 0) := by
  have hXn : pos.1.toNat < n := by omega
  have hYn : pos.2.toNat < n := by omega
  refine ⟨?_, ?_, ?_, ?_, ?_, ?_, ?_, ?_, ?_, ?_⟩
  · intro x y h1
    refine updV_other _ _ _ _ _ _ ?_
    rintro ⟨rfl, rfl⟩
    exact h1 hvis
  · intro x y h1
    rw [updV_other]
    · exact hout x y h1
    · rintro ⟨rfl, rfl⟩
      exact h1 ⟨hXn, hYn⟩
  · intro x y h1 h2
    by_cases hq : x = pos.1.toNat ∧ y = pos.2.toNat
    · obtain ⟨rfl, rfl⟩ := hq
      exact ⟨hXn, hYn, hg⟩
    · rw [updV_other _ _ _ _ _ _ hq] at h2
      omega
  · intro x y h1 h2
    by_cases hq : x = pos.1.toNat ∧ y = pos.2.toNat
    · obtain ⟨rfl, rfl⟩ := hq
      simp [updV_same] at h2
    · rw [updV_other _ _ _ _ _ _ hq] at h2
      omega
  · rw [newOnes_upd0]
    rfl
  · intro x y h1 h2
    by_cases hq : x = pos.1.toNat ∧ y = pos.2.toNat
    · obtain ⟨rfl, rfl⟩ := hq
      simp [updV_same] at h2
    · rw [updV_other _ _ _ _ _ _ hq] at h2
      omega
  · rintro ⟨x, y, h1, h2⟩
    by_cases hq : x = pos.1.toNat ∧ y = pos.2.toNat
    · obtain ⟨rfl, rfl⟩ := hq
      simp [updV_same] at h2
    · rw [updV_other _ _ _ _ _ _ hq] at h2
      omega
  · intro x y h1 h2
    by_cases hq : x = pos.1.toNat ∧ y = pos.2.toNat
    · obtain ⟨rfl, rfl⟩ := hq
      simp [updV_same] at h2
    · rw [updV_other _ _ _ _ _ _ hq] at h2
      omega
  · intro _ _ _ _
    rw [updV_same]
    decide
  · intro x y hv
    by_cases hq : x = pos.1.toNat ∧ y = pos.2.toNat
    · obtain ⟨rfl, rfl⟩ := hq
      rw [updV_same]
      right
      left
      rfl
    · rw [updV_other _ _ _ _ _ _ hq]
      exact Or.inl hv

/-- Stage decomposition for a productive flood-fill call: any cell visited
during the call was either the call position itself or was first visited by
exactly one of the four neighbour sub-calls, and its final mark is the one
that sub-call gave it. -/
theorem ubs_work_stages {t : Colour} {g : Grid} {n : Nat} {pos : Int × Int}
    {v v1 v2 v3 v4 : Visited} {c1 c2 c3 c4 : Nat}
    (hvis : v pos.1.toNat pos.2.toNat = -1)
    (O1 : UbsOut t g n (pos.1 + 1, pos.2) (updV v pos.1.toNat pos.2.toNat 1) c1 v1)
    (O2 : UbsOut t g n (pos.1 - 1, pos.2) v1 c2 v2)
    (O3 : UbsOut t g n (pos.1, pos.2 + 1) v2 c3 v3)
    (O4 : UbsOut t g n (pos.1, pos.2 - 1) v3 c4 v4) :
    ∀ x y, v x y = -1 → v4 x y ≠ -1 →
      (x = pos.1.toNat ∧ y = pos.2.toNat) ∨
      (updV v pos.1.toNat pos.2.toNat 1 x y = -1 ∧ v1 x y ≠ -1 ∧ v4 x y = v1 x y) ∨
      (v1 x y = -1 ∧ v2 x y ≠ -1 ∧ v4 x y = v2 x y) ∨
      (v2 x y = -1 ∧ v3 x y ≠ -1 ∧ v4 x y = v3 x y) ∨
      (v3 x y = -1 ∧ v4 x y ≠ -1) := by
  have K2 := persist_trans O3.persist O4.persist
  have K1 := persist_trans O2.persist K2
  intro x y hv h4
  by_cases hc : x = pos.1.toNat ∧ y = pos.2.toNat
  · exact Or.inl hc
  · have h0 : updV v pos.1.toNat pos.2.toNat 1 x y = -1 := by
      rw [updV_other _ _ _ _ _ _ hc]
      exact hv
    by_cases h1 : v1 x y ≠ -1
    · exact Or.inr (Or.inl ⟨h0, h1, K1 x y h1⟩)
    · push_neg at h1
      by_cases h2 : v2 x y ≠ -1
      · exact Or.inr (Or.inr (Or.inl ⟨h1, h2, K2 x y h2⟩))
      · push_neg at h2
        by_cases h3 : v3 x y ≠ -1
        · exact Or.inr (Or.inr (Or.inr (Or.inl ⟨h2, h3, O4.persist x y h3⟩)))
        · push_neg at h3
          exact Or.inr (Or.inr (Or.inr (Or.inr ⟨h3, h4⟩)))

/-- Marks present before a productive call persist through it. -/
theorem ubs_work_persist {t : Colour} {g : Grid} {n : Nat} {pos : Int × Int}
    {v v1 v2 v3 v4 : Visited} {c1 c2 c3 c4 : Nat}
    (hvis : v pos.1.toNat pos.2.toNat = -1)
    (O1 : UbsOut t g n (pos.1 + 1, pos.2) (updV v pos.1.toNat pos.2.toNat 1) c1 v1)
    (O2 : UbsOut t g n (pos.1 - 1, pos.2) v1 c2 v2)
    (O3 : UbsOut t g n (pos.1, pos.2 + 1) v2 c3 v3)
    (O4 : UbsOut t g n (pos.1, pos.2 - 1) v3 c4 v4) :
    ∀ x y, v x y ≠ -1 → v4 x y = v x y := by
  have P0 : ∀ x y, v x y ≠ -1 → updV v pos.1.toNat pos.2.toNat 1 x y = v x y := by
    intro x y h
    refine updV_other _ _ _ _ _ _ ?_
    rintro ⟨rfl, rfl⟩
    exact h hvis
  exact persist_trans P0 (persist_trans O1.persist (persist_trans O2.persist
    (persist_trans O3.persist O4.persist)))

/-- The call position of a productive call carries mark 1 afterwards. -/
theorem ubs_work_centre {t : Colour} {g : Grid} {n : Nat} {pos : Int × Int}
    {v v1 v2 v3 v4 : Visited} {c1 c2 c3 c4 : Nat}
    (O1 : UbsOut t g n (pos.1 + 1, pos.2) (updV v pos.1.toNat pos.2.toNat 1) c1 v1)
    (O2 : UbsOut t g n (pos.1 - 1, pos.2) v1 c2 v2)
    (O3 : UbsOut t g n (pos.1, pos.2 + 1) v2 c3 v3)
    (O4 : UbsOut t g n (pos.1, pos.2 - 1) v3 c4 v4) :
    v4 pos.1.toNat pos.2.toNat = 1 :=
  persist_one O4.persist (persist_one O3.persist (persist_one O2.persist
    (persist_one O1.persist (updV_same _ _ _ _))))

/-- Newly written 0-marks of a productive call are in-bounds non-target
cells. -/
theorem ubs_work_sound0 {t : Colour} {g : Grid} {n : Nat} {pos : Int × Int}
    {v v1 v2 v3 v4 : Visited} {c1 c2 c3 c4 : Nat}
    (hvis : v pos.1.toNat pos.2.toNat = -1)
    (O1 : UbsOut t g n (pos.1 + 1, pos.2) (updV v pos.1.toNat pos.2.toNat 1) c1 v1)
    (O2 : UbsOut t g n (pos.1 - 1, pos.2) v1 c2 v2)
    (O3 : UbsOut t g n (pos.1, pos.2 + 1) v2 c3 v3)
    (O4 : UbsOut t g n (pos.1, pos.2 - 1) v3 c4 v4) :
    ∀ x y, v x y = -1 → v4 x y = 0 → x < n ∧ y < n ∧ g x y ≠ some t := by
  have hcen := ubs_work_centre O1 O2 O3 O4
  intro x y hv h0
  rcases ubs_work_stages hvis O1 O2 O3 O4 x y hv (by rw [h0]; decide) with ⟨rfl, rfl⟩ |
    ⟨ha, hb', hval⟩ | ⟨ha, hb', hval⟩ | ⟨ha, hb', hval⟩ | ⟨ha, hb'⟩
  · exfalso
    omega
  · exact O1.sound0 x y ha (by rw [← hval]; exact h0)
  · exact O2.sound0 x y ha (by rw [← hval]; exact h0)
  · exact O3.sound0 x y ha (by rw [← hval]; exact h0)
  · exact O4.sound0 x y ha h0

/-- Newly written 1-marks of a productive call are in-bounds target
cells. -/
theorem ubs_work_sound1 {t : Colour} {g : Grid} {n : Nat} {pos : Int × Int}
    {v v1 v2 v3 v4 : Visited} {c1 c2 c3 c4 : Nat}
    (hb1 : 0 ≤ pos.1) (hb2 : pos.1 < (n : Int)) (hb3 : 0 ≤ pos.2) (hb4 : pos.2 < (n : Int))
    (hvis : v pos.1.toNat pos.2.toNat = -1)
    (hg : g pos.1.toNat pos.2.toNat = some t)
    (O1 : UbsOut t g n (pos.1 + 1, pos.2) (updV v pos.1.toNat pos.2.toNat 1) c1 v1)
    (O2 : UbsOut t g n (pos.1 - 1, pos.2) v1 c2 v2)
    (O3 : UbsOut t g n (pos.1, pos.2 + 1) v2 c3 v3)
    (O4 : UbsOut t g n (pos.1, pos.2 - 1) v3 c4 v4) :
    ∀ x y, v x y = -1 → v4 x y = 1 → x < n ∧ y < n ∧ g x y = some t := by
  intro x y hv h1
  rcases ubs_work_stages hvis O1 O2 O3 O4 x y hv (by rw [h1]; decide) with ⟨rfl, rfl⟩ |
    ⟨ha, hb', hval⟩ | ⟨ha, hb', hval⟩ | ⟨ha, hb', hval⟩ | ⟨ha, hb'⟩
  · exact ⟨by omega, by omega, hg⟩
  · exact O1.sound1 x y ha (by rw [← hval]; exact h1)
  · exact O2.sound1 x y ha (by rw [← hval]; exact h1)
  · exact O3.sound1 x y ha (by rw [← hval]; exact h1)
  · exact O4.sound1 x y ha h1

/-- The count of a productive call is the number of newly written 1-marks:
the new 1-marks split into the call position plus the disjoint new 1-marks
of the four sub-calls. -/
theorem ubs_work_count {t : Colour} {g : Grid} {n : Nat} {pos : Int × Int}
    {v v1 v2 v3 v4 : Visited} {c1 c2 c3 c4 : Nat}
    (hb1 : 0 ≤ pos.1) (hb2 : pos.1 < (n : Int)) (hb3 : 0 ≤ pos.2) (hb4 : pos.2 < (n : Int))
    (hvis : v pos.1.toNat pos.2.toNat = -1)
    (O1 : UbsOut t g n (pos.1 + 1, pos.2) (updV v pos.1.toNat pos.2.toNat 1) c1 v1)
    (O2 : UbsOut t g n (pos.1 - 1, pos.2) v1 c2 v2)
    (O3 : UbsOut t g n (pos.1, pos.2 + 1) v2 c3 v3)
    (O4 : UbsOut t g n (pos.1, pos.2 - 1) v3 c4 v4) :
    c1 + c2 + c3 + c4 + 1 = (newOnes n v v4).card := by
  have hXn : pos.1.toNat < n := by omega
  have hYn : pos.2.toNat < n := by omega
  have hcen0 : updV v pos.1.toNat pos.2.toNat 1 pos.1.toNat pos.2.toNat = 1 :=
    updV_same _ _ _ _
  have hcen1 : v1 pos.1.toNat pos.2.toNat = 1 := persist_one O1.persist hcen0
  have hcen2 : v2 pos.1.toNat pos.2.toNat = 1 := persist_one O2.persist hcen1
  have hcen3 : v3 pos.1.toNat pos.2.toNat = 1 := persist_one O3.persist hcen2
  have hcentre : v4 pos.1.toNat pos.2.toNat = 1 := persist_one O4.persist hcen3
  have back1 := persist_back O1.persist
  have back2 := persist_back O2.persist
  have back3 := persist_back O3.persist
  have back0 : ∀ a b, updV v pos.1.toNat pos.2.toNat 1 a b = -1 → v a b = -1 := by
    intro a b h
    by_cases hc : a = pos.1.toNat ∧ b = pos.2.toNat
    · obtain ⟨rfl, rfl⟩ := hc
      rw [hcen0] at h
      simp at h
    · rw [updV_other _ _ _ _ _ _ hc] at h
      exact h
  have K2 := persist_trans O3.persist O4.persist
  have K1 := persist_trans O2.persist K2
  have hsetEq : newOnes n v v4 =
      insert (pos.1.toNat, pos.2.toNat)
        (newOnes n (updV v pos.1.toNat pos.2.toNat 1) v1 ∪ newOnes n v1 v2 ∪
          newOnes n v2 v3 ∪ newOnes n v3 v4) := by
    ext q
    obtain ⟨a, b⟩ := q
    simp only [newOnes, Finset.mem_insert, Finset.mem_union, Finset.mem_filter,
      Finset.mem_product, Finset.mem_range, Prod.mk.injEq]
    constructor
    · rintro ⟨⟨han, hbn⟩, hva, hv4⟩
      rcases ubs_work_stages hvis O1 O2 O3 O4 a b hva (by rw [hv4]; decide) with hcen |
        ⟨h0', h1', hval⟩ | ⟨h0', h1', hval⟩ | ⟨h0', h1', hval⟩ | ⟨h0', h1'⟩
      · exact Or.inl hcen
      · exact Or.inr (Or.inl (Or.inl (Or.inl ⟨⟨han, hbn⟩, h0',
          by rw [← hval]; exact hv4⟩)))
      · exact Or.inr (Or.inl (Or.inl (Or.inr ⟨⟨han, hbn⟩, h0',
          by rw [← hval]; exact hv4⟩)))
      · exact Or.inr (Or.inl (Or.inr ⟨⟨han, hbn⟩, h0',
          by rw [← hval]; exact hv4⟩))
      · exact Or.inr (Or.inr ⟨⟨han, hbn⟩, h0', hv4⟩)
    · rintro (⟨rfl, rfl⟩ | (((⟨⟨han, hbn⟩, h0', h1'⟩ | ⟨⟨han, hbn⟩, h0', h1'⟩) |
        ⟨⟨han, hbn⟩, h0', h1'⟩) | ⟨⟨han, hbn⟩, h0', h1'⟩))
      · exact ⟨⟨hXn, hYn⟩, hvis, hcentre⟩
      · refine ⟨⟨han, hbn⟩, back0 a b h0', ?_⟩
        rw [K1 a b (by rw [h1']; decide)]
        exact h1'
      · refine ⟨⟨han, hbn⟩, back0 a b (back1 a b h0'), ?_⟩
        rw [K2 a b (by rw [h1']; decide)]
        exact h1'
      · refine ⟨⟨han, hbn⟩, back0 a b (back1 a b (back2 a b h0')), ?_⟩
        rw [O4.persist a b (by rw [h1']; decide)]
        exact h1'
      · exact ⟨⟨han, hbn⟩, back0 a b (back1 a b (back2 a b (back3 a b h0'))), h1'⟩
  have hnotmem : (pos.1.toNat, pos.2.toNat) ∉
      (newOnes n (updV v pos.1.toNat pos.2.toNat 1) v1 ∪ newOnes n v1 v2 ∪
        newOnes n v2 v3 ∪ newOnes n v3 v4) := by
    simp only [Finset.mem_union, newOnes, Finset.mem_filter]
    push_neg
    refine ⟨⟨⟨fun _ h => absurd hcen0 (by rw [h]; decide),
      fun _ h => absurd hcen1 (by rw [h]; decide)⟩,
      fun _ h => absurd hcen2 (by rw [h]; decide)⟩,
      fun _ h => absurd hcen3 (by rw [h]; decide)⟩
  have hd12 : Disjoint (newOnes n (updV v pos.1.toNat pos.2.toNat 1) v1)
      (newOnes n v1 v2) := by
    rw [Finset.disjoint_left]
    intro q hq1 hq2
    simp only [newOnes, Finset.mem_filter] at hq1 hq2
    omega
  have hd123 : Disjoint
      (newOnes n (updV v pos.1.toNat pos.2.toNat 1) v1 ∪ newOnes n v1 v2)
      (newOnes n v2 v3) := by
    rw [Finset.disjoint_left]
    intro q hq1 hq2
    simp only [Finset.mem_union, newOnes, Finset.mem_filter] at hq1 hq2
    rcases hq1 with hq1 | hq1
    · have := O2.persist q.1 q.2 (by rw [hq1.2.2]; decide)
      omega
    · omega
  have hd1234 : Disjoint
      (newOnes n (updV v pos.1.toNat pos.2.toNat 1) v1 ∪ newOnes n v1 v2 ∪
        newOnes n v2 v3) (newOnes n v3 v4) := by
    rw [Finset.disjoint_left]
    intro q hq1 hq2
    simp only [Finset.mem_union, newOnes, Finset.mem_filter] at hq1 hq2
    rcases hq1 with (hq1 | hq1) | hq1
    · have h2q := O2.persist q.1 q.2 (by rw [hq1.2.2]; decide)
      have h3q := O3.persist q.1 q.2 (by rw [h2q, hq1.2.2]; decide)
      omega
    · have h3q := O3.persist q.1 q.2 (by rw [hq1.2.2]; decide)
      omega
    · omega
  rw [hsetEq, Finset.card_insert_of_not_mem hnotmem,
    Finset.card_union_of_disjoint hd1234, Finset.card_union_of_disjoint hd123,
    Finset.card_union_of_disjoint hd12, ← O1.count, ← O2.count, ← O3.count, ← O4.count]

/-- Every cell newly marked 1 by a productive call is 4-connected to the
call position through target cells. -/
theorem ubs_work_reach {t : Colour} {g : Grid} {n : Nat} {pos : Int × Int}
    {v v1 v2 v3 v4 : Visited} {c1 c2 c3 c4 : Nat}
    (hb1 : 0 ≤ pos.1) (hb2 : pos.1 < (n : Int)) (hb3 : 0 ≤ pos.2) (hb4 : pos.2 < (n : Int))
    (hvis : v pos.1.toNat pos.2.toNat = -1)
    (hg : g pos.1.toNat pos.2.toNat = some t)
    (O1 : UbsOut t g n (pos.1 + 1, pos.2) (updV v pos.1.toNat pos.2.toNat 1) c1 v1)
    (O2 : UbsOut t g n (pos.1 - 1, pos.2) v1 c2 v2)
    (O3 : UbsOut t g n (pos.1, pos.2 + 1) v2 c3 v3)
    (O4 : UbsOut t g n (pos.1, pos.2 - 1) v3 c4 v4) :
    ∀ x y, v x y = -1 → v4 x y = 1 →
      Relation.ReflTransGen (adjCell t g n) (pos.1.toNat, pos.2.toNat) (x, y) := by
  have hXn : pos.1.toNat < n := by omega
  have hYn : pos.2.toNat < n := by omega
  intro x y hv h1
  rcases ubs_work_stages hvis O1 O2 O3 O4 x y hv (by rw [h1]; decide) with ⟨rfl, rfl⟩ |
    ⟨ha, hb', hval⟩ | ⟨ha, hb', hval⟩ | ⟨ha, hb', hval⟩ | ⟨ha, hb'⟩
  · exact Relation.ReflTransGen.refl
  · have h1one : v1 x y = 1 := by rw [← hval]; exact h1
    have hw := O1.workInfo ⟨x, y, ha, h1one⟩
    dsimp only at hw
    obtain ⟨hp1, hp2, hp3, hp4, hpv, hpv1⟩ := hw
    have hD := O1.sound1 _ _ hpv hpv1
    have hr := O1.reach x y ha h1one
    dsimp only at hr
    refine Relation.ReflTransGen.head
      (⟨⟨hXn, hYn, hg⟩, ⟨hD.1, hD.2.1, hD.2.2⟩, Or.inr ⟨rfl, Or.inl (by omega)⟩⟩ :
        adjCell t g n (pos.1.toNat, pos.2.toNat) ((pos.1 + 1).toNat, pos.2.toNat)) hr
  · have h1one : v2 x y = 1 := by rw [← hval]; exact h1
    have hw := O2.workInfo ⟨x, y, ha, h1one⟩
    dsimp only at hw
    obtain ⟨hp1, hp2, hp3, hp4, hpv, hpv1⟩ := hw
    have hD := O2.sound1 _ _ hpv hpv1
    have hr := O2.reach x y ha h1one
    dsimp only at hr
    refine Relation.ReflTransGen.head
      (⟨⟨hXn, hYn, hg⟩, ⟨hD.1, hD.2.1, hD.2.2⟩, Or.inr ⟨rfl, Or.inr (by omega)⟩⟩ :
        adjCell t g n (pos.1.toNat, pos.2.toNat) ((pos.1 - 1).toNat, pos.2.toNat)) hr
  · have h1one : v3 x y = 1 := by rw [← hval]; exact h1
    have hw := O3.workInfo ⟨x, y, ha, h1one⟩
    dsimp only at hw
    obtain ⟨hp1, hp2, hp3, hp4, hpv, hpv1⟩ := hw
    have hD := O3.sound1 _ _ hpv hpv1
    have hr := O3.reach x y ha h1one
    dsimp only at hr
    refine Relation.ReflTransGen.head
      (⟨⟨hXn, hYn, hg⟩, ⟨hD.1, hD.2.1, hD.2.2⟩, Or.inl ⟨rfl, Or.inl (by omega)⟩⟩ :
        adjCell t g n (pos.1.toNat, pos.2.toNat) (pos.1.toNat, (pos.2 + 1).toNat)) hr
  · have hw := O4.workInfo ⟨x, y, ha, h1⟩
    dsimp only at hw
    obtain ⟨hp1, hp2, hp3, hp4, hpv, hpv1⟩ := hw
    have hD := O4.sound1 _ _ hpv hpv1
    have hr := O4.reach x y ha h1
    dsimp only at hr
    refine Relation.ReflTransGen.head
      (⟨⟨hXn, hYn, hg⟩, ⟨hD.1, hD.2.1, hD.2.2⟩, Or.inl ⟨rfl, Or.inr (by omega)⟩⟩ :
        adjCell t g n (pos.1.toNat, pos.2.toNat) (pos.1.toNat, (pos.2 - 1).toNat)) hr

/-- After a productive call, every 4-neighbour of a newly marked 1-cell is
visited. -/
theorem ubs_work_closure {t : Colour} {g : Grid} {n : Nat} {pos : Int × Int}
    {v v1 v2 v3 v4 : Visited} {c1 c2 c3 c4 : Nat}
    (hb1 : 0 ≤ pos.1) (hb2 : pos.1 < (n : Int)) (hb3 : 0 ≤ pos.2) (hb4 : pos.2 < (n : Int))
    (hvis : v pos.1.toNat pos.2.toNat = -1)
    (O1 : UbsOut t g n (pos.1 + 1, pos.2) (updV v pos.1.toNat pos.2.toNat 1) c1 v1)
    (O2 : UbsOut t g n (pos.1 - 1, pos.2) v1 c2 v2)
    (O3 : UbsOut t g n (pos.1, pos.2 + 1) v2 c3 v3)
    (O4 : UbsOut t g n (pos.1, pos.2 - 1) v3 c4 v4) :
    ∀ x y, v x y = -1 → v4 x y = 1 →
      ∀ q : Nat × Nat, adjCell t g n (x, y) q → v4 q.1 q.2 ≠ -1 := by
  have K2 := persist_trans O3.persist O4.persist
  have K1 := persist_trans O2.persist K2
  have J1 := O1.visitedAfter
  have J2 := O2.visitedAfter
  have J3 := O3.visitedAfter
  have J4 := O4.visitedAfter
  dsimp only at J1 J2 J3 J4
  intro x y hv h1 q hadj
  rcases ubs_work_stages hvis O1 O2 O3 O4 x y hv (by rw [h1]; decide) with ⟨rfl, rfl⟩ |
    ⟨ha, hb', hval⟩ | ⟨ha, hb', hval⟩ | ⟨ha, hb', hval⟩ | ⟨ha, hb'⟩
  · obtain ⟨hp, hqt, harith⟩ := hadj
    obtain ⟨hq1, hq2, hq3⟩ := hqt
    rcases harith with ⟨hx, hy⟩ | ⟨hx, hy⟩
    · rcases hy with hy | hy
      · have h3 : v3 pos.1.toNat (pos.2 + 1).toNat ≠ -1 :=
          J3 (by omega) (by omega) (by omega) (by omega)
        have hq1e : pos.1.toNat = q.1 := by omega
        have hq2e : (pos.2 + 1).toNat = q.2 := by omega
        rw [hq1e, hq2e] at h3
        rw [O4.persist q.1 q.2 h3]
        exact h3
      · have h4q : v4 pos.1.toNat (pos.2 - 1).toNat ≠ -1 :=
          J4 (by omega) (by omega) (by omega) (by omega)
        have hq1e : pos.1.toNat = q.1 := by omega
        have hq2e : (pos.2 - 1).toNat = q.2 := by omega
        rw [hq1e, hq2e] at h4q
        exact h4q
    · rcases hy with hy | hy
      · have h1q : v1 (pos.1 + 1).toNat pos.2.toNat ≠ -1 :=
          J1 (by omega) (by omega) (by omega) (by omega)
        have hq1e : (pos.1 + 1).toNat = q.1 := by omega
        have hq2e : pos.2.toNat = q.2 := by omega
        rw [hq1e, hq2e] at h1q
        rw [K1 q.1 q.2 h1q]
        exact h1q
      · have h2q : v2 (pos.1 - 1).toNat pos.2.toNat ≠ -1 :=
          J2 (by omega) (by omega) (by omega) (by omega)
        have hq1e : (pos.1 - 1).toNat = q.1 := by omega
        have hq2e : pos.2.toNat = q.2 := by omega
        rw [hq1e, hq2e] at h2q
        rw [K2 q.1 q.2 h2q]
        exact h2q
  · have hclose := O1.closure x y ha (by rw [← hval]; exact h1) q hadj
    rw [K1 q.1 q.2 hclose]
    exact hclose
  · have hclose := O2.closure x y ha (by rw [← hval]; exact h1) q hadj
    rw [K2 q.1 q.2 hclose]
    exact hclose
  · have hclose := O3.closure x y ha (by rw [← hval]; exact h1) q hadj
    rw [O4.persist q.1 q.2 hclose]
    exact hclose
  · exact O4.closure x y ha h1 q hadj

/-- A productive call writes only marks in `{-1, 0, 1}`. -/
theorem ubs_work_range {t : Colour} {g : Grid} {n : Nat} {pos : Int × Int}
    {v v1 v2 v3 v4 : Visited} {c1 c2 c3 c4 : Nat}
    (hvis : v pos.1.toNat pos.2.toNat = -1)
    (O1 : UbsOut t g n (pos.1 + 1, pos.2) (updV v pos.1.toNat pos.2.toNat 1) c1 v1)
    (O2 : UbsOut t g n (pos.1 - 1, pos.2) v1 c2 v2)
    (O3 : UbsOut t g n (pos.1, pos.2 + 1) v2 c3 v3)
    (O4 : UbsOut t g n (pos.1, pos.2 - 1) v3 c4 v4) :
    ∀ x y, v x y = -1 → v4 x y = -1 ∨ v4 x y = 0 ∨ v4 x y = 1 := by
  have hcentre := ubs_work_centre O1 O2 O3 O4
  intro x y hv
  by_cases h4 : v4 x y = -1
  · exact Or.inl h4
  · rcases ubs_work_stages hvis O1 O2 O3 O4 x y hv h4 with ⟨rfl, rfl⟩ |
      ⟨ha, hb', hval⟩ | ⟨ha, hb', hval⟩ | ⟨ha, hb', hval⟩ | ⟨ha, hb'⟩
    · rw [hcentre]
      right
      right
      rfl
    · rw [hval]
      exact O1.range x y ha
    · rw [hval]
      exact O2.range x y ha
    · rw [hval]
      exact O3.range x y ha
    · exact O4.range x y ha

/-- The full postcondition package for a productive call. -/
theorem ubs_work_out {t : Colour} {g : Grid} {n : Nat} {pos : Int × Int}
    {v v1 v2 v3 v4 : Visited} {c1 c2 c3 c4 : Nat}
    (hb1 : 0 ≤ pos.1) (hb2 : pos.1 < (n : Int)) (hb3 : 0 ≤ pos.2) (hb4 : pos.2 < (n : Int))
    (hvis : v pos.1.toNat pos.2.toNat = -1)
    (hg : g pos.1.toNat pos.2.toNat = some t)
    (O1 : UbsOut t g n (pos.1 + 1, pos.2) (updV v pos.1.toNat pos.2.toNat 1) c1 v1)
    (O2 : UbsOut t g n (pos.1 - 1, pos.2) v1 c2 v2)
    (O3 : UbsOut t g n (pos.1, pos.2 + 1) v2 c3 v3)
    (O4 : UbsOut t g n (pos.1, pos.2 - 1) v3 c4 v4) :
    UbsOut t g n pos v (c1 + c2 + c3 + c4 + 1) v4 := by
  have hcentre := ubs_work_centre O1 O2 O3 O4
  refine ⟨ubs_work_persist hvis O1 O2 O3 O4, O4.outside,
    ubs_work_sound0 hvis O1 O2 O3 O4,
    ubs_work_sound1 hb1 hb2 hb3 hb4 hvis hg O1 O2 O3 O4,
    ubs_work_count hb1 hb2 hb3 hb4 hvis O1 O2 O3 O4,
    ubs_work_reach hb1 hb2 hb3 hb4 hvis hg O1 O2 O3 O4, ?_,
    ubs_work_closure hb1 hb2 hb3 hb4 hvis O1 O2 O3 O4, ?_,
    ubs_work_range hvis O1 O2 O3 O4⟩
  · intro _
    exact ⟨hb1, hb2, hb3, hb4, hvis, hcentre⟩
  · intro _ _ _ _
    rw [hcentre]
    decide

/-- Specification of goal.py `_undiscovered_blob_size`: with more fuel than
unvisited cells (so the fuel bound is never what stops the recursion) and a
map whose marks all lie inside the grid, the call computes a pair
satisfying the `UbsOut` postconditions. -/
theorem ubs_spec (t : Colour) (g : Grid) (n : Nat) :
    ∀ (fuel : Nat) (pos : Int × Int) (v : Visited),
    unvisCount n v < fuel →
    (∀ x y, ¬(x < n ∧ y < n) → v x y = -1) →
    ∃ c vv, ubs t g n fuel pos v = (c, vv) ∧ UbsOut t g n pos v c vv := by
  intro fuel
  induction fuel with
  | zero =>
    intro pos v hfuel hout
    omega
  | succ fuel ih =>
    intro pos v hfuel hout
    by_cases hb : pos.1 < 0 ∨ (n : Int) ≤ pos.1 ∨ pos.2 < 0 ∨ (n : Int) ≤ pos.2
    · refine ⟨0, v, ?_, ubsOut_oob hb hout⟩
      simp only [ubs]
      rw [if_pos hb]
    · push_neg at hb
      obtain ⟨hb1, hb2, hb3, hb4⟩ := hb
      by_cases hvis : v pos.1.toNat pos.2.toNat ≠ -1
      · refine ⟨0, v, ?_, ubsOut_visited hvis hout⟩
        simp only [ubs]
        rw [if_neg (by omega), if_pos hvis]
      · push_neg at hvis
        by_cases hg : g pos.1.toNat pos.2.toNat ≠ some t
        · refine ⟨0, updV v pos.1.toNat pos.2.toNat 0, ?_,
            ubsOut_nontarget hb1 hb2 hb3 hb4 hvis hg hout⟩
          simp only [ubs]
          rw [if_neg (by omega), if_neg (by simp [hvis]), if_pos hg]
        · push_neg at hg
          have hXn : pos.1.toNat < n := by omega
          have hYn : pos.2.toNat < n := by omega
          have hu0 : unvisCount n (updV v pos.1.toNat pos.2.toNat 1) < fuel := by
            have := unvisCount_updV v 1 hXn hYn hvis (by decide)
            omega
          have hout0 : ∀ x y, ¬(x < n ∧ y < n) →
              updV v pos.1.toNat pos.2.toNat 1 x y = -1 := by
            intro x y hxy
            rw [updV_other]
            · exact hout x y hxy
            · rintro ⟨rfl, rfl⟩
              exact hxy ⟨hXn, hYn⟩
          obtain ⟨c1, v1, e1, O1⟩ :=
            ih (pos.1 + 1, pos.2) (updV v pos.1.toNat pos.2.toNat 1) hu0 hout0
          have hu1 : unvisCount n v1 < fuel :=
            lt_of_le_of_lt (unvisCount_mono O1.persist) hu0
          obtain ⟨c2, v2, e2, O2⟩ := ih (pos.1 - 1, pos.2) v1 hu1 O1.outside
          have hu2 : unvisCount n v2 < fuel :=
            lt_of_le_of_lt (unvisCount_mono O2.persist) hu1
          obtain ⟨c3, v3, e3, O3⟩ := ih (pos.1, pos.2 + 1) v2 hu2 O2.outside
          have hu3 : unvisCount n v3 < fuel :=
            lt_of_le_of_lt (unvisCount_mono O3.persist) hu2
          obtain ⟨c4, v4, e4, O4⟩ := ih (pos.1, pos.2 - 1) v3 hu3 O3.outside
          refine ⟨c1 + c2 + c3 + c4 + 1, v4, ?_,
            ubs_work_out hb1 hb2 hb3 hb4 hvis hg O1 O2 O3 O4⟩
          simp only [ubs]
          rw [if_neg (by omega), if_neg (by simp [hvis]), if_neg (by simp [hg])]
          simp only [e1, e2, e3, e4]


/-- The scan order covers exactly the grid cells. -/
theorem mem_allCells {n : Nat} {p : Nat × Nat} :
    p ∈ allCells n ↔ p.1 < n ∧ p.2 < n := by
  obtain ⟨a, b⟩ := p
  simp only [allCells, List.mem_flatMap, List.mem_map, List.mem_range]
  constructor
  · rintro ⟨i, hi, j, hj, hij⟩
    obtain ⟨rfl, rfl⟩ := Prod.mk.injEq .. ▸ hij
    exact ⟨hi, hj⟩
  · rintro ⟨ha, hb⟩
    exact ⟨a, ha, b, hb, rfl⟩

/-- One top-level scan call of `BlobGoal.score`: from an
invariant-satisfying map, the call preserves the invariant and the existing
marks; its count is either 0 or exactly the size of the blob through the
scan position; every cell it newly marks 1 has a blob of exactly that size;
and an in-bounds scan position is visited afterwards. -/
theorem ubs_top {t : Colour} {g : Grid} {n : Nat} {v : Visited}
    (INV : TopInv t g n v) (p : Nat × Nat) :
    ∃ c vv, ubs t g n (n * n + 1) ((p.1 : Int), (p.2 : Int)) v = (c, vv) ∧
      TopInv t g n vv ∧
      (∀ x y, v x y ≠ -1 → vv x y = v x y) ∧
      (c = 0 ∨ (targetCell t g n p ∧ c = (blobComp t g n p).ncard)) ∧
      (∀ q : Nat × Nat, v q.1 q.2 = -1 → vv q.1 q.2 = 1 →
        (blobComp t g n q).ncard = c) ∧
      (p.1 < n → p.2 < n → vv p.1 p.2 ≠ -1) := by
  have hfuel : unvisCount n v < n * n + 1 :=
    lt_of_le_of_lt (unvisCount_le n v) (Nat.lt_succ_self _)
  obtain ⟨c, vv, heq, O⟩ :=
    ubs_spec t g n (n * n + 1) ((p.1 : Int), (p.2 : Int)) v hfuel INV.outside
  have Oreach := O.reach
  have Owork := O.workInfo
  have Ovis := O.visitedAfter
  simp only [Int.toNat_ofNat] at Oreach Owork Ovis
  have wfv : ∀ x y, vv x y = -1 ∨ vv x y = 0 ∨ vv x y = 1 := by
    intro x y
    by_cases hxy : v x y = -1
    · exact O.range x y hxy
    · rw [O.persist x y hxy]
      exact INV.wf x y
  have sound0v : ∀ x y, vv x y = 0 → x < n ∧ y < n ∧ g x y ≠ some t := by
    intro x y h0
    by_cases hxy : v x y = -1
    · exact O.sound0 x y hxy h0
    · rw [O.persist x y hxy] at h0
      exact INV.sound0 x y h0
  have sound1v : ∀ x y, vv x y = 1 → x < n ∧ y < n ∧ g x y = some t := by
    intro x y h1
    by_cases hxy : v x y = -1
    · exact O.sound1 x y hxy h1
    · rw [O.persist x y hxy] at h1
      exact INV.sound1 x y h1
  have closedv : ∀ a q : Nat × Nat, vv a.1 a.2 = 1 → adjCell t g n a q →
      vv q.1 q.2 = 1 := by
    intro a q h1 hadj
    obtain ⟨hq1, hq2, hq3⟩ := hadj.2.1
    by_cases hxy : v a.1 a.2 = -1
    · have hne := O.closure a.1 a.2 hxy h1 q hadj
      rcases wfv q.1 q.2 with h | h | h
      · exact absurd h hne
      · exact absurd hq3 (sound0v q.1 q.2 h).2.2
      · exact h
    · have hv1 : v a.1 a.2 = 1 := by
        rw [O.persist a.1 a.2 hxy] at h1
        exact h1
      have hc := INV.closed a q hv1 hadj
      rw [O.persist q.1 q.2 (by rw [hc]; decide)]
      exact hc
  by_cases hex : ∃ x y, v x y = -1 ∧ vv x y = 1
  · obtain ⟨hp1, hp2, hp3, hp4, hpv, hpv1⟩ := Owork hex
    have htp : targetCell t g n p := by
      have := O.sound1 p.1 p.2 hpv hpv1
      exact ⟨this.1, this.2.1, this.2.2⟩
    have hsub1 : ∀ q : Nat × Nat, v q.1 q.2 = -1 → vv q.1 q.2 = 1 →
        q ∈ blobComp t g n p := by
      intro q hq1 hq2
      exact Oreach q.1 q.2 hq1 hq2
    have hsub2 : ∀ q : Nat × Nat, q ∈ blobComp t g n p →
        v q.1 q.2 = -1 ∧ vv q.1 q.2 = 1 := by
      intro q hq
      refine reach_closed (fun r => v r.1 r.2 = -1 ∧ vv r.1 r.2 = 1) ?_ hq ⟨hpv, hpv1⟩
      intro r s hr hadj
      obtain ⟨hs1, hs2, hs3⟩ := hadj.2.1
      have hne := O.closure r.1 r.2 hr.1 hr.2 s hadj
      have hsv1 : vv s.1 s.2 = 1 := by
        rcases wfv s.1 s.2 with h | h | h
        · exact absurd h hne
        · exact absurd hs3 (sound0v s.1 s.2 h).2.2
        · exact h
      have hsv : v s.1 s.2 = -1 := by
        rcases INV.wf s.1 s.2 with h | h | h
        · exact h
        · exact absurd hs3 (INV.sound0 s.1 s.2 h).2.2
        · have hc := INV.closed s r h (adjCell_symm hadj)
          rw [hc] at hr
          exact absurd hr.1 (by decide)
      exact ⟨hsv, hsv1⟩
    have hcoe : ↑(newOnes n v vv) = blobComp t g n p := by
      ext q
      simp only [Finset.mem_coe, newOnes, Finset.mem_filter, Finset.mem_product,
        Finset.mem_range]
      constructor
      · rintro ⟨-, h1, h2⟩
        exact hsub1 q h1 h2
      · intro hq
        obtain ⟨h1, h2⟩ := hsub2 q hq
        have hb := O.sound1 q.1 q.2 h1 h2
        exact ⟨⟨hb.1, hb.2.1⟩, h1, h2⟩
    have hncard : (blobComp t g n p).ncard = (newOnes n v vv).card := by
      rw [← hcoe, Set.ncard_coe_Finset]
    refine ⟨c, vv, heq, ⟨O.outside, wfv, sound0v, sound1v, closedv⟩, O.persist,
      Or.inr ⟨htp, by rw [O.count]; exact hncard.symm⟩, ?_, ?_⟩
    · intro q hq1 hq2
      rw [blobComp_eq_of_reach (hsub1 q hq1 hq2)]
      exact hncard.trans O.count.symm
    · intro hp1n hp2n
      exact Ovis (by omega) (by omega) (by omega) (by omega)
  · push_neg at hex
    have hzero : newOnes n v vv = ∅ := by
      ext q
      simp only [newOnes, Finset.mem_filter, Finset.not_mem_empty, iff_false, not_and]
      intro _ h1
      exact hex q.1 q.2 h1
    refine ⟨c, vv, heq, ⟨O.outside, wfv, sound0v, sound1v, closedv⟩, O.persist,
      Or.inl (by rw [O.count, hzero]; rfl), ?_, ?_⟩
    · intro q h1 h2
      exact absurd h2 (hex q.1 q.2 h1)
    · intro hp1n hp2n
      exact Ovis (by omega) (by omega) (by omega) (by omega)

/-- The scan loop of `BlobGoal.score`: starting from an
invariant-satisfying map, it computes a list of counts, each of which is 0
or the exact size of some blob of the target colour; the blob size of every
cell newly marked 1 during the loop appears in the list; and every scanned
in-bounds position ends up visited. -/
theorem blobFold_spec (t : Colour) (g : Grid) (n : Nat) :
    ∀ (cells : List (Nat × Nat)) (v : Visited), TopInv t g n v →
    ∃ res vF, blobFold t g n cells v = (res, vF) ∧
      TopInv t g n vF ∧
      (∀ x y, v x y ≠ -1 → vF x y = v x y) ∧
      (∀ e ∈ res, e = 0 ∨ ∃ q : Nat × Nat, targetCell t g n q ∧
        e = (blobComp t g n q).ncard) ∧
      (∀ q : Nat × Nat, v q.1 q.2 = -1 → vF q.1 q.2 = 1 →
        (blobComp t g n q).ncard ∈ res) ∧
      (∀ p ∈ cells, p.1 < n → p.2 < n → vF p.1 p.2 ≠ -1) := by
  intro cells
  induction cells with
  | nil =>
    intro v INV
    refine ⟨[], v, rfl, INV, fun _ _ _ => rfl, by simp, ?_, by simp⟩
    intro q h1 h2
    omega
  | cons p rest ih =>
    intro v INV
    obtain ⟨c, vv, heq, INV1, pers1, centry, cnew, cvis⟩ := ubs_top INV p
    obtain ⟨res, vF, heqF, INVF, persF, entries, news, scanned⟩ := ih vv INV1
    refine ⟨c :: res, vF, ?_, INVF, persist_trans pers1 persF, ?_, ?_, ?_⟩
    · simp only [blobFold, heq, heqF]
    · intro e he
      rcases List.mem_cons.mp he with rfl | he
      · rcases centry with h | ⟨ht, hc⟩
        · exact Or.inl h
        · exact Or.inr ⟨p, ht, hc⟩
      · exact entries e he
    · intro q h1 h2
      by_cases hmid : vv q.1 q.2 = -1
      · exact List.mem_cons_of_mem c (news q hmid h2)
      · have hval : vF q.1 q.2 = vv q.1 q.2 := persF q.1 q.2 hmid
        rw [hval] at h2
        have hcq := cnew q h1 h2
        rw [hcq]
        exact List.mem_cons_self c res
    · intro q hq hq1 hq2
      rcases List.mem_cons.mp hq with rfl | hq
      · have hvq := cvis hq1 hq2
        intro hcontra
        exact hvq (persist_back persF q.1 q.2 hcontra)
      · exact scanned q hq hq1 hq2

/-- A blob is contained in the grid. -/
theorem blobComp_finite {t : Colour} {g : Grid} {n : Nat} {p : Nat × Nat}
    (hp : targetCell t g n p) : (blobComp t g n p).Finite := by
  refine Set.Finite.subset (Finset.range n ×ˢ Finset.range n).finite_toSet ?_
  intro q hq
  have hbound : q.1 < n ∧ q.2 < n := by
    refine reach_closed (fun r => r.1 < n ∧ r.2 < n) ?_ hq ⟨hp.1, hp.2.1⟩
    intro r s _ hadj
    exact ⟨hadj.2.1.1, hadj.2.1.2.1⟩
  simp only [Finset.coe_product, Set.mem_prod, Finset.mem_coe, Finset.mem_range]
  exact hbound

set_option maxRecDepth 10000 in
/-- C2: on every valid board, `BlobGoal.score` computes the size of the
largest 4-connected (up/down/left/right) region of target-coloured cells of
the flattened grid: it bounds every blob's size from above and is attained
by some blob when a target cell exists, it is 0 when no cell has the target
colour, and on the concrete two-blob board (blobs of sizes 3 and 4, not
connected to each other) it scores 4 — the maximum, not the sum. -/
theorem C2_blob_score (b : Block) (hb : b.valid) (t : Colour) :
    (∀ p : Nat × Nat, targetCell t (flatten b) b.gridSide p →
      (blobComp t (flatten b) b.gridSide p).ncard ≤ blobScore t b) ∧
    ((∃ p : Nat × Nat, targetCell t (flatten b) b.gridSide p) →
      ∃ p : Nat × Nat, targetCell t (flatten b) b.gridSide p ∧
        blobScore t b = (blobComp t (flatten b) b.gridSide p).ncard) ∧
    ((∀ p : Nat × Nat, ¬ targetCell t (flatten b) b.gridSide p) → blobScore t b = 0) ∧
    blobScore REAL_RED sampleTwoBlobs = 4 := by
  have INV0 : TopInv t (flatten b) b.gridSide (fun _ _ => -1) := by
    refine ⟨fun _ _ _ => rfl, fun _ _ => Or.inl rfl, ?_, ?_, ?_⟩
    · intro x y h
      exact absurd h (by decide)
    · intro x y h
      exact absurd h (by decide)
    · intro p q h _
      exact absurd h (by decide)
  obtain ⟨res, vF, heq, INVF, persF, entries, news, scanned⟩ :=
    blobFold_spec t (flatten b) b.gridSide (allCells b.gridSide) (fun _ _ => -1) INV0
  have hscore : blobScore t b = res.foldl max 0 := by
    rw [blobScore, heq]
  obtain ⟨hseed, hub, hmem⟩ := foldl_max_spec res 0
  have hfin1 : ∀ p : Nat × Nat, targetCell t (flatten b) b.gridSide p →
      vF p.1 p.2 = 1 := by
    intro p hp
    obtain ⟨hp1, hp2, hp3⟩ := hp
    have hvis := scanned p (mem_allCells.mpr ⟨hp1, hp2⟩) hp1 hp2
    rcases INVF.wf p.1 p.2 with h | h | h
    · exact absurd h hvis
    · exact absurd hp3 (INVF.sound0 p.1 p.2 h).2.2
    · exact h
  have hinres : ∀ p : Nat × Nat, targetCell t (flatten b) b.gridSide p →
      (blobComp t (flatten b) b.gridSide p).ncard ∈ res := by
    intro p hp
    exact news p rfl (hfin1 p hp)
  have hupper : ∀ p : Nat × Nat, targetCell t (flatten b) b.gridSide p →
      (blobComp t (flatten b) b.gridSide p).ncard ≤ blobScore t b := by
    intro p hp
    rw [hscore]
    exact hub _ (hinres p hp)
  refine ⟨hupper, ?_, ?_, ?_⟩
  · rintro ⟨p, hp⟩
    have hone : 0 < (blobComp t (flatten b) b.gridSide p).ncard :=
      (Set.ncard_pos (blobComp_finite hp)).mpr ⟨p, Relation.ReflTransGen.refl⟩
    have hpos : 0 < blobScore t b := lt_of_lt_of_le hone (hupper p hp)
    rw [hscore] at hpos
    have hmax_mem : res.foldl max 0 ∈ res := by
      rcases hmem with h | h
      · rw [h] at hpos
        omega
      · exact h
    rcases entries _ hmax_mem with h0 | ⟨q, hq, hqe⟩
    · rw [h0] at hpos
      omega
    · exact ⟨q, hq, by rw [hscore, hqe]⟩
  · intro hnone
    rw [hscore]
    rcases hmem with h | h
    · exact h
    · rcases entries _ h with h0 | ⟨q, hq, hqe⟩
      · exact h0
      · exact absurd hq (hnone q)
  · decide

/-- Witness for C2 at the concrete uniform leaf board with target Real
Red. -/
theorem C2_blob_score_witness :
    sampleLeaf.valid ∧
    ((∀ p : Nat × Nat, targetCell REAL_RED (flatten sampleLeaf) sampleLeaf.gridSide p →
      (blobComp REAL_RED (flatten sampleLeaf) sampleLeaf.gridSide p).ncard ≤
        blobScore REAL_RED sampleLeaf) ∧
    ((∃ p : Nat × Nat, targetCell REAL_RED (flatten sampleLeaf) sampleLeaf.gridSide p) →
      ∃ p : Nat × Nat, targetCell REAL_RED (flatten sampleLeaf) sampleLeaf.gridSide p ∧
        blobScore REAL_RED sampleLeaf =
          (blobComp REAL_RED (flatten sampleLeaf) sampleLeaf.gridSide p).ncard) ∧
    ((∀ p : Nat × Nat, ¬ targetCell REAL_RED (flatten sampleLeaf) sampleLeaf.gridSide p) →
      blobScore REAL_RED sampleLeaf = 0) ∧
    blobScore REAL_RED sampleTwoBlobs = 4) :=
  ⟨by simp only [sampleLeaf, Block.valid]; decide,
   C2_blob_score sampleLeaf (by simp only [sampleLeaf, Block.valid]; decide) REAL_RED⟩
